import Mathlib

/-!
Journal buffer preparation (`dur_preplogbuffer.cpp`) and `OptimisticShareableLock`.

A shallow embedding of `mongo/db/dur_preplogbuffer.cpp` and of
`mongo/util/concurrency/optimistic_rwlock.h`, followed by the properties
established for them.

Conventions of the embedding:

* addresses, lengths and file offsets are natural numbers; the two places where the
  source narrows a value to `unsigned` are written with `toUnsigned` (reduction
  modulo `2 ^ 32`);
* the output buffer (`AlignedBuilder`) is the list of the append calls made on it;
* code that throws or aborts returns an `Outcome` other than `Outcome.ok` together
  with the state reached at that point;
* the self-call that ends `prepBasicWrite_inlock` is bounded by a fuel argument.
-/

namespace mongo
namespace dur

/-! ## Data model -/

/-- Modelled from the spec: the class `RelativePath` is declared outside the sources at
hand; the spec describes a relative logical path serialized as a string. A
default-constructed `RelativePath` holds the empty string. -/
structure RelativePath where
  p : String
deriving DecidableEq, Repr

instance : Inhabited RelativePath := ⟨⟨""⟩⟩

/-- The global `local` of line 60: `RelativePath::fromRelativePath("local")`. -/
def localPath : RelativePath := ⟨"local"⟩

/-- The narrowing conversion `(unsigned)`: reduction modulo `2 ^ 32`. -/
def toUnsigned (z : Int) : Nat := (z % 4294967296).toNat

/-- Modelled from the spec: `WriteIntent` is declared in `dur_commitjob.h`, outside the
sources at hand. The spec's `WriteRange` is `{start: address, length: bytes}`, ordered
by `start`. Its `length()` is an `unsigned` of 32 bits (line 97 takes the minimum of it
and an `unsigned`); the lengths of the intents given to the program are below `2 ^ 32`. -/
structure WriteIntent where
  start : Nat
  length : Nat
deriving DecidableEq, Repr

namespace WriteIntent

/-- The accessor `end()`: one past the last byte of the range. -/
def end_ (i : WriteIntent) : Nat := i.start + i.length

/-- Modelled from the spec: a default-constructed `WriteIntent` (`WriteIntent last;`,
line 146). Its `end()` is the null address, so that the accumulator is "initialized
from the first element". -/
def empty : WriteIntent := ⟨0, 0⟩

/-- Modelled from the spec: `WriteIntent::absorb` is defined outside the sources at
hand; it "widens the range to the union of two overlapping-or-adjacent ranges": the end
becomes `max(accumulator.end, i.end)` and the length the distance from the smaller start
to that end. The length being an `unsigned` of 32 bits, this distance is narrowed to 32
bits, and the start is the end less the length. -/
def absorb (self other : WriteIntent) : WriteIntent :=
  let newStart := min self.start other.start
  let p := max self.end_ other.end_
  let len := toUnsigned ((p : Int) - (newStart : Int))
  ⟨p - len, len⟩

/-- Byte address `x` lies in the range `[start, start + length)`. -/
def covers (i : WriteIntent) (x : Nat) : Prop := i.start ≤ x ∧ x < i.start + i.length

instance (i : WriteIntent) (x : Nat) : Decidable (i.covers x) := by
  unfold covers; exact inferInstance

end WriteIntent

/-- The checks made with `verify(...)` or with an `assert...()` helper. -/
inductive Check where
  | durEnabled            -- verify(storageGlobalParams.dur), line 176
  | lockedForCommitting   -- assertLockedForCommitting(), lines 177 and 193
  | nothingSpooled        -- assertNothingSpooled(), line 142
  | intentsNonEmpty       -- verify( !_intents.empty() ), line 144
  | ofsInRange            -- verify( ofs <= 0x80000000 ), line 98
deriving DecidableEq, Repr

/-- How a call ends. `journalingFailure` is the abort of `findMMF_inlock` (the spec's
UnresolvedAddress), `verifyFailed c` a failed check, and `outOfFuel` means that the
fuel given to the embedding did not suffice (it is not a behaviour of the program). -/
inductive Outcome where
  | ok
  | journalingFailure
  | verifyFailed (c : Check)
  | outOfFuel
deriving DecidableEq, Repr

/-- The spec's PreconditionViolation: a failed check on the caller's obligations (every
check except the bound on the file offset, which the spec calls a contract violation of
the encoder). -/
def Outcome.isPreconditionViolation : Outcome → Bool
  | Outcome.verifyFailed Check.ofsInRange => false
  | Outcome.verifyFailed _ => true
  | _ => false

/-! ## The coalescing loop of `prepBasicWrites` -/

/-- The loop of `prepBasicWrites` (lines 147-159), for an arbitrary action `enc` in the
place of `prepBasicWrite_inlock`. `atBegin` is `i == _intents.begin()`, `last` the
accumulator. A failing `enc` leaves the loop, as a C++ exception does. -/
def prepBasicWritesLoop {σ : Type} (enc : WriteIntent → σ → Outcome × σ) :
    Bool → List WriteIntent → WriteIntent → σ → Outcome × σ
  | _, [], last, st => enc last st
  | atBegin, i :: rest, last, st =>
    if i.start < last.end_ then
      -- overlaps
      prepBasicWritesLoop enc false rest (last.absorb i) st
    else
      -- discontinuous
      if atBegin then
        prepBasicWritesLoop enc false rest i st
      else
        match enc last st with
        | (Outcome.ok, st1) => prepBasicWritesLoop enc false rest i st1
        | (o, st1) => (o, st1)

/-- The ranges that the loop of `prepBasicWrites` hands to the encoder, in order: the
loop run with an action that only records its argument. -/
def handedRanges (intents : List WriteIntent) : List WriteIntent :=
  (prepBasicWritesLoop (fun r (acc : List WriteIntent) => (Outcome.ok, acc ++ [r]))
    true intents WriteIntent.empty []).2

/-- Applying an action to each range of a list in turn, stopping at the first failure. -/
def encodeRanges {σ : Type} (enc : WriteIntent → σ → Outcome × σ) :
    List WriteIntent → σ → Outcome × σ
  | [], st => (Outcome.ok, st)
  | r :: rs, st =>
    match enc r st with
    | (Outcome.ok, st1) => encodeRanges enc rs st1
    | (o, st1) => (o, st1)

/-- The accumulator loop as a function on lists: the ranges flushed when the
accumulator is `last` and `rest` is still to be read. -/
def coalesce : WriteIntent → List WriteIntent → List WriteIntent
  | last, [] => [last]
  | last, i :: rest =>
    if i.start < last.end_ then coalesce (last.absorb i) rest
    else last :: coalesce i rest

/-- Whether every `absorb` of the loop, with the accumulator `last` and `rest` still to be
read, makes a range of fewer than `2 ^ 32` bytes, so that its length is not narrowed. -/
def mergesFit : WriteIntent → List WriteIntent → Bool
  | _, [] => true
  | last, i :: rest =>
    if i.start < last.end_ then
      decide (max last.end_ i.end_ - min last.start i.start < 4294967296) &&
        mergesFit (last.absorb i) rest
    else mergesFit i rest

/-- Whether every range that the loop of `prepBasicWrites` merges from the given intents
has fewer than `2 ^ 32` bytes. -/
def unionsFit : List WriteIntent → Bool
  | [] => true
  | i :: rest => mergesFit i rest

/-! ## The encoder `prepBasicWrite_inlock` -/

/-- Modelled from the spec: `DurableMappedFile` is declared outside the sources at hand.
The encoder reads `length()`, `fileSuffixNo()` and `relativePath()` and reads and sets
`willNeedRemap()` (the spec's fileId, relativePath and needsRemap; the remaining length
in the file is `length() - ofs`). -/
structure DurableMappedFile where
  length : Nat
  fileSuffixNo : Nat
  relativePath : RelativePath
  willNeedRemap : Bool

/-- Modelled from the spec: `privateViews`, the mapping table, is declared outside the
sources at hand (`MappingTable.resolve(address) -> ResolvedLocation | NotFound`).
`find_inlock ptr` is `none` for the null pointer and otherwise the handle of the mapped
file found together with the offset written to the out parameter `ofs`; `mmf` gives the
state of the mapped file behind a handle. -/
structure PrivateViews where
  find_inlock : Nat → Option (Nat × Nat)
  mmf : Nat → DurableMappedFile

/-- Modelled from the spec: `JEntry` is declared outside the sources at hand; the spec's
Entry is `{length, fileOffset, fileSequenceNumber, isLocalDbFlag}`. -/
structure JEntry where
  len : Nat
  ofs : Nat
  fileNo : Nat
  localDbContextBit : Bool
deriving DecidableEq, Repr

/-- Modelled from the spec: `DurOp` is declared outside the sources at hand; its
`serialize(bb)` is "opaque to this core beyond append bytes". -/
structure DurOp where
  bytes : List Nat
deriving DecidableEq, Repr

/-- Modelled from the spec: `JSectHeader` is declared outside the sources at hand; the
spec's SectionHeader is `{sectionLength, sequenceNumber, fileId}`. -/
structure JSectHeader where
  sectionLen : Nat
  seqNumber : Nat
  fileId : Nat
deriving DecidableEq, Repr

/-- Modelled from the spec: `AlignedBuilder` is declared outside the sources at hand; the
spec's append-only buffer offers `reset()`, `appendStruct(T)` and `appendBytes(ptr,len)`.
A `BufItem` is one append call, and the buffer content is the list of the calls made
since the last `reset()`. -/
inductive BufItem where
  | dbContext                     -- bb.appendStruct(c) with c a JDbContext
  | str (s : String)              -- bb.appendStr(s)
  | entry (e : JEntry)            -- bb.appendStruct(e)
  | buf (src : Nat) (len : Nat)   -- bb.appendBuf(src, len): len bytes copied from src
  | durOp (op : DurOp)            -- op.serialize(bb)
  | sectHeader (h : JSectHeader)  -- bb.appendStruct(h) with h a JSectHeader: not called here
deriving DecidableEq, Repr

/-- What the encoder reads and writes: the buffer `bb`, the cursor `lastDbPath` and the
mapping table. -/
structure JournalState where
  bb : List BufItem
  lastDbPath : RelativePath
  privateViews : PrivateViews

/-- The assignment `mmf->willNeedRemap() = true` on the mapped file with handle `f`. -/
def JournalState.setWillNeedRemap (st : JournalState) (f : Nat) : JournalState :=
  { st with privateViews :=
      { st.privateViews with
        mmf := fun g =>
          if g = f then { st.privateViews.mmf g with willNeedRemap := true }
          else st.privateViews.mmf g } }

/-- The function `findMMF_inlock` (lines 62-72): a null result of `find_inlock` ends in
`journalingFailure`, which does not return. -/
def findMMF_inlock (pv : PrivateViews) (ptr : Nat) : Except Outcome (Nat × Nat) :=
  match pv.find_inlock ptr with
  | none => Except.error Outcome.journalingFailure
  | some r => Except.ok r

/-- Lines 79-84: the mapped file is tagged as needing a remap unless it already is. -/
def JournalState.tagWillNeedRemap (st : JournalState) (f : Nat) : JournalState :=
  if (st.privateViews.mmf f).willNeedRemap = false then st.setWillNeedRemap f else st

/-- Lines 96-103: the fields of the `JEntry` written for the range `i` found at offset
`ofs` of the mapped file `mmf`. -/
def makeJEntry (i : WriteIntent) (mmf : DurableMappedFile) (ofs : Nat) : JEntry :=
  { len := min i.length (toUnsigned ((mmf.length : Int) - (ofs : Int))) -- don't write past end of file
    ofs := toUnsigned ofs
    fileNo := mmf.fileSuffixNo
    localDbContextBit := decide (mmf.relativePath = localPath) }

/-- Lines 101-109, the effect on the buffer and on the cursor: for a path other than
`local` that differs from `lastDbPath`, a `JDbContext` and the path are appended and the
cursor moves to the path. -/
def JournalState.journalDbContext (st : JournalState) (path : RelativePath) : JournalState :=
  if path = localPath then st
  else if path ≠ st.lastDbPath then
    { st with
      lastDbPath := path
      bb := st.bb ++ [BufItem.dbContext, BufItem.str path.p] }
  else st

/-- Result of the body of `prepBasicWrite_inlock` up to its closing self-call. -/
inductive BodyResult where
  | failed (o : Outcome) (st : JournalState)
  | done (st : JournalState)
  | split (next : WriteIntent) (st : JournalState)

/-- The state in which the body ends. -/
def BodyResult.state : BodyResult → JournalState
  | BodyResult.failed _ st => st
  | BodyResult.done st => st
  | BodyResult.split _ st => st

/-- Lines 76-124 of `prepBasicWrite_inlock`: everything but the self-call of line 125,
whose argument is returned in `BodyResult.split`. -/
def prepBasicWrite_body (i : WriteIntent) (st : JournalState) : BodyResult :=
  match findMMF_inlock st.privateViews i.start with
  | Except.error o => BodyResult.failed o st
  | Except.ok (f, ofs) =>
    let st1 := st.tagWillNeedRemap f
    let mmf := st1.privateViews.mmf f
    let e := makeJEntry i mmf ofs
    if ofs ≤ 0x80000000 then
      let st2 := st1.journalDbContext mmf.relativePath
      let st3 := { st2 with bb := st2.bb ++ [BufItem.entry e, BufItem.buf i.start e.len] }
      if e.len ≠ i.length then
        -- journal info splitting prepBasicWrite at boundary
        BodyResult.split ⟨i.start + e.len, i.length - e.len⟩ st3
      else BodyResult.done st3
    else BodyResult.failed (Outcome.verifyFailed Check.ofsInRange) st1

/-- The function `prepBasicWrite_inlock` (lines 75-127): the body, then the self-call on
the rest of the range while a rest remains. The first argument bounds the number of
calls. -/
def prepBasicWrite_inlock : Nat → WriteIntent → JournalState → Outcome × JournalState
  | 0, _, st => (Outcome.outOfFuel, st)
  | fuel + 1, i, st =>
    match prepBasicWrite_body i st with
    | BodyResult.failed o st1 => (o, st1)
    | BodyResult.done st1 => (Outcome.ok, st1)
    | BodyResult.split next st1 => prepBasicWrite_inlock fuel next st1

/-- The calls of `prepBasicWrite_inlock` made for one range, in order: the range of each
call and the state in which it starts. -/
def prepBasicWrite_calls : Nat → WriteIntent → JournalState → List (WriteIntent × JournalState)
  | 0, _, _ => []
  | fuel + 1, i, st =>
    (i, st) ::
      match prepBasicWrite_body i st with
      | BodyResult.split next st1 => prepBasicWrite_calls fuel next st1
      | _ => []

/-! ## The assembler -/

/-- Modelled from the spec: the collaborators read by the assembler, all declared outside
the sources at hand: `storageGlobalParams.dur`, whether the commit-exclusion lock is held
(`assertLockedForCommitting`), whether nothing is spooled (`assertNothingSpooled`),
`getLastDataFileFlushTime()`, `j.curFileId()` once the log file is open, and the commit
job's `ops()` and `getIntentsSorted()`. -/
structure Env where
  dur : Bool
  lockedForCommitting : Bool
  nothingSpooled : Bool
  lastDataFileFlushTime : Nat
  curFileId : Nat
  ops : List DurOp
  intentsSorted : List WriteIntent

/-- The function `prepBasicWrites` (lines 135-160). -/
def prepBasicWrites (env : Env) (fuel : Nat) (st : JournalState) : Outcome × JournalState :=
  let st0 := { st with lastDbPath := default }
  if env.nothingSpooled = false then (Outcome.verifyFailed Check.nothingSpooled, st0)
  else if env.intentsSorted.isEmpty then (Outcome.verifyFailed Check.intentsNonEmpty, st0)
  else prepBasicWritesLoop (prepBasicWrite_inlock fuel) true env.intentsSorted
    WriteIntent.empty st0

/-- The function `resetLogBuffer` (lines 162-168). -/
def resetLogBuffer (env : Env) (st : JournalState) : JSectHeader × JournalState :=
  ({ sectionLen := 0xffffffff, seqNumber := env.lastDataFileFlushTime,
     fileId := env.curFileId },
   { st with bb := [] })

/-- The function `_PREPLOGBUFFER` (lines 175-191). The header `h` is an out parameter:
it is returned as it stands when the call ends. -/
def _PREPLOGBUFFER (env : Env) (fuel : Nat) (h : JSectHeader) (st : JournalState) :
    Outcome × JSectHeader × JournalState :=
  if env.dur = false then (Outcome.verifyFailed Check.durEnabled, h, st)
  else if env.lockedForCommitting = false then
    (Outcome.verifyFailed Check.lockedForCommitting, h, st)
  else
    let (h1, st1) := resetLogBuffer env st
    let st2 := { st1 with bb := st1.bb ++ env.ops.map BufItem.durOp }
    let (o, st3) := prepBasicWrites env fuel st2
    (o, h1, st3)

/-- The function `PREPLOGBUFFER` (lines 192-198); the timer and the statistics are left
out. -/
def PREPLOGBUFFER (env : Env) (fuel : Nat) (h : JSectHeader) (st : JournalState) :
    Outcome × JSectHeader × JournalState :=
  if env.lockedForCommitting = false then
    (Outcome.verifyFailed Check.lockedForCommitting, h, st)
  else _PREPLOGBUFFER env fuel h st

/-! ## Reading the buffer and the calls -/

/-- The ranges on which `prepBasicWrite_inlock` is called for the ranges of a list, in
order, each with the state in which the call starts; nothing follows a failed range. -/
def encodeRanges_calls (fuel : Nat) :
    List WriteIntent → JournalState → List (WriteIntent × JournalState)
  | [], _ => []
  | r :: rs, st =>
    prepBasicWrite_calls fuel r st ++
      match prepBasicWrite_inlock fuel r st with
      | (Outcome.ok, st1) => encodeRanges_calls fuel rs st1
      | _ => []

/-- Whether the start of `i` is found in the table at an offset that passes the check of
line 98 with at least one byte left in the file, as line 97 computes it. -/
def resolvesWithRoom (pv : PrivateViews) (i : WriteIntent) : Bool :=
  match pv.find_inlock i.start with
  | none => false
  | some (f, ofs) =>
    decide (ofs ≤ 0x80000000) &&
      decide (0 < toUnsigned (((pv.mmf f).length : Int) - (ofs : Int)))

/-- The path, the `JEntry` and the source address of the Entry that a call on the range
`i` writes; `none` when the start of `i` is not found or its offset fails the check. -/
def resolvedEntry (pv : PrivateViews) (i : WriteIntent) : Option (RelativePath × JEntry × Nat) :=
  match pv.find_inlock i.start with
  | none => none
  | some (f, ofs) =>
    if ofs ≤ 0x80000000 then
      some ((pv.mmf f).relativePath, makeJEntry i (pv.mmf f) ofs, i.start)
    else none

/-- The lengths of the `JEntry` records of a buffer, in order. -/
def entryLens : List BufItem → List Nat
  | [] => []
  | BufItem.entry e :: t => e.len :: entryLens t
  | _ :: t => entryLens t

/-- The arguments (source address, length) of the `appendBuf` calls of a buffer. -/
def payloads : List BufItem → List (Nat × Nat)
  | [] => []
  | BufItem.buf src len :: t => (src, len) :: payloads t
  | _ :: t => payloads t

/-- Each payload starts at the address where the one before it ended, the first at `a`. -/
def contiguousFrom : Nat → List (Nat × Nat) → Prop
  | _, [] => True
  | a, (src, len) :: t => src = a ∧ contiguousFrom (a + len) t

/-- The records written before an Entry of path `p` when the cursor is `c`. -/
def contextItems (c p : RelativePath) : List BufItem :=
  if p ≠ localPath ∧ p ≠ c then [BufItem.dbContext, BufItem.str p.p] else []

/-- The cursor after an Entry of path `p`: the path of the last Entry written that is not
of the local database. -/
def nextCursor (c p : RelativePath) : RelativePath := if p = localPath then c else p

/-- The buffer content for a sequence of Entries when a PathContext goes before the
Entries whose path is not `local` and differs from the cursor. -/
def layoutByCursor : RelativePath → List (RelativePath × JEntry × Nat) → List BufItem
  | _, [] => []
  | c, (p, e, src) :: t =>
    contextItems c p ++ [BufItem.entry e, BufItem.buf src e.len] ++
      layoutByCursor (nextCursor c p) t

/-- The cursor after a sequence of Entries. -/
def cursorAfter : RelativePath → List (RelativePath × JEntry × Nat) → RelativePath
  | c, [] => c
  | c, (p, _, _) :: t => cursorAfter (nextCursor c p) t

/-- The buffer content for a sequence of Entries in the words of the spec: a PathContext
goes before an Entry if and only if its path differs from the path of the Entry just
before it, and the first Entry with a path other than `local` always gets one. `prev` is
the path of the Entry just before, `seen` whether an Entry with a path other than `local`
came before. -/
def layoutByPrevEntry :
    Option RelativePath → Bool → List (RelativePath × JEntry × Nat) → List BufItem
  | _, _, [] => []
  | prev, seen, (p, e, src) :: t =>
    (if (prev.isSome ∧ prev ≠ some p) ∨ (seen = false ∧ p ≠ localPath) then
        [BufItem.dbContext, BufItem.str p.p]
      else []) ++ [BufItem.entry e, BufItem.buf src e.len] ++
      layoutByPrevEntry (some p) (seen || decide (p ≠ localPath)) t

/-- The state after the body has written the Entry `e` for a range found in the mapped
file `f`. -/
def afterEntry (st : JournalState) (f : Nat) (e : JEntry) (src : Nat) : JournalState :=
  let st2 := (st.tagWillNeedRemap f).journalDbContext (st.privateViews.mmf f).relativePath
  { st2 with bb := st2.bb ++ [BufItem.entry e, BufItem.buf src e.len] }

/-- Two mapping tables that differ at most in the `willNeedRemap` tags. -/
def PrivateViews.sameFiles (a b : PrivateViews) : Prop :=
  a.find_inlock = b.find_inlock ∧
  ∀ f, (a.mmf f).length = (b.mmf f).length ∧
    (a.mmf f).fileSuffixNo = (b.mmf f).fileSuffixNo ∧
    (a.mmf f).relativePath = (b.mmf f).relativePath

/-- The `JEntry` records of a buffer, in order. -/
def entryRecords : List BufItem → List JEntry
  | [] => []
  | BufItem.entry e :: t => e :: entryRecords t
  | _ :: t => entryRecords t

/-- Every `JEntry` of the buffer is immediately followed by an `appendBuf` of exactly
`len` bytes, and no `appendBuf` stands elsewhere. -/
def payloadFollowsEntry : List BufItem → Prop
  | [] => True
  | BufItem.entry e :: BufItem.buf _ len :: t => len = e.len ∧ payloadFollowsEntry t
  | BufItem.entry _ :: _ => False
  | BufItem.buf _ _ :: _ => False
  | _ :: t => payloadFollowsEntry t

/-- The `len` bytes of a memory `mem` from the address `src` on, which is what
`appendBuf(src, len)` copies into the buffer. -/
def memBytes (mem : Nat → Nat) (src len : Nat) : List Nat :=
  (List.range len).map (fun k => mem (src + k))

/-- The bytes of a sequence of payloads, one after the other. -/
def payloadBytes (mem : Nat → Nat) : List (Nat × Nat) → List Nat
  | [] => []
  | (src, len) :: t => memBytes mem src len ++ payloadBytes mem t

/-- Whether the start of `i` is found in the table at an offset that fails the check of
line 98. -/
def failsOfsCheck (pv : PrivateViews) (i : WriteIntent) : Bool :=
  match pv.find_inlock i.start with
  | none => false
  | some (_, ofs) => decide (0x80000000 < ofs)

/-- The handles of the mapped files found for the starts of the given ranges. -/
def resolvedHandles (pv : PrivateViews) (rs : List WriteIntent) : List Nat :=
  rs.filterMap (fun r => (pv.find_inlock r.start).map Prod.fst)

/-- Modelled from the spec: what the spec lets the mapping table hold as to sizes,
"mapped files are bounded below that size" (`0x8000_0000`), an address being resolved to
an offset inside its file. -/
def PrivateViews.filesBounded (pv : PrivateViews) : Prop :=
  ∀ a f ofs, pv.find_inlock a = some (f, ofs) →
    ofs ≤ (pv.mmf f).length ∧ (pv.mmf f).length ≤ 0x80000000

/-- Three mapped files of 100 bytes each, two mapped back to back at the addresses 0 and
100 and one at 1000, with the given paths. -/
def exampleViews (pathA pathB pathC : RelativePath) : PrivateViews where
  find_inlock := fun a =>
    if a < 100 then some (0, a)
    else if a < 200 then some (1, a - 100)
    else if 1000 ≤ a ∧ a < 1100 then some (2, a - 1000)
    else none
  mmf := fun f =>
    if f = 0 then ⟨100, 7, pathA, false⟩
    else if f = 1 then ⟨100, 8, pathB, true⟩
    else ⟨100, 9, pathC, false⟩

/-- An empty buffer over `exampleViews`. -/
def exampleState (pathA pathB pathC : RelativePath) : JournalState :=
  ⟨[], default, exampleViews pathA pathB pathC⟩

/-- One mapped file of `0x90000000` bytes mapped at the address 0. -/
def largeFileState : JournalState :=
  ⟨[], default,
    { find_inlock := fun a => if a < 0x90000000 then some (0, a) else none
      mmf := fun _ => ⟨0x90000000, 3, ⟨"big"⟩, false⟩ }⟩

/-- One mapped file of `2 ^ 32 + 5` bytes mapped at the address 0. -/
def hugeFileState : JournalState :=
  ⟨[], default,
    { find_inlock := fun a => if a < 4294967301 then some (0, a) else none
      mmf := fun _ => ⟨4294967301, 4, ⟨"huge"⟩, false⟩ }⟩

end dur

/-! ## `OptimisticShareableLock`, one thread at a time -/

/-- The constant `EXCLUSIVE` (line 5). -/
def EXCLUSIVE : Nat := 0x10000

/-- The constant `MASK` (line 6). -/
def MASK : Nat := 0x0ffff

/-- Modelled from the spec: `SimpleRWLock` is declared outside the sources at hand: "a
conventional shared/reader lock, which is itself mutually exclusive with the writer
lock". The state is the number of readers holding it and whether a writer holds it. -/
structure SimpleRWLock where
  readers : Nat
  writer : Bool
deriving DecidableEq, Repr

namespace SimpleRWLock

/-- Modelled from the spec: reader acquisition of the conventional lock, which excludes
the writer; `none` when the caller would block. -/
def lock_shared (r : SimpleRWLock) : Option SimpleRWLock :=
  if r.writer then none else some { r with readers := r.readers + 1 }

/-- Modelled from the spec: writer acquisition of the conventional lock, which excludes
readers and writers; `none` when the caller would block. -/
def lock (r : SimpleRWLock) : Option SimpleRWLock :=
  if r.writer ∨ r.readers ≠ 0 then none else some { r with writer := true }

/-- Modelled from the spec: writer release of the conventional lock. -/
def unlock (r : SimpleRWLock) : SimpleRWLock := { r with writer := false }

end SimpleRWLock

/-- The fields of `OptimisticShareableLock` (lines 15-18): the counter `_x`, an
`AtomicUInt` of 32 bits, the lock `_r`, and for the condition `_doneShared` the number of
`notify_all()` calls made on it. The mutex `_m` only guards the wait on the condition. -/
structure OptimisticShareableLock where
  _x : Nat
  _r : SimpleRWLock
  _doneShared : Nat
deriving DecidableEq, Repr

namespace OptimisticShareableLock

/-- The method `decrement()` (lines 19-25). -/
def decrement (l : OptimisticShareableLock) : OptimisticShareableLock :=
  let res := dur.toUnsigned ((l._x : Int) - 1)
  let l1 := { l with _x := res }
  if res ≠ 0 ∧ res &&& MASK = 0 then { l1 with _doneShared := l1._doneShared + 1 } else l1

/-- A `Shared` guard (lines 47-64): its field `_quick`. -/
structure Shared where
  _quick : Bool
deriving DecidableEq, Repr

/-- The constructor `Shared(l)` (lines 51-59); `none` when `lock_shared` would block. -/
def Shared.acquire (l : OptimisticShareableLock) : Option (Shared × OptimisticShareableLock) :=
  let res := dur.toUnsigned ((l._x : Int) + 1)
  let l1 := { l with _x := res }
  let quick := decide (res < EXCLUSIVE)
  if quick = false then
    -- old fashioned approach
    let l2 := l1.decrement
    match l2._r.lock_shared with
    | none => none
    | some r => some (⟨quick⟩, { l2 with _r := r })
  else some (⟨quick⟩, l1)

/-- The destructor `~Shared()` (lines 60-63). -/
def Shared.release (g : Shared) (l : OptimisticShareableLock) : OptimisticShareableLock :=
  if g._quick then l.decrement else l

/-- An `Exclusive` guard (lines 27-46) has no field besides the reference to the lock. -/
structure Exclusive where
deriving DecidableEq, Repr

/-- The constructor `Exclusive(l)` (lines 30-41); `none` when the wait for the readers
to leave, or `lock()`, would block. -/
def Exclusive.acquire (l : OptimisticShareableLock) :
    Option (Exclusive × OptimisticShareableLock) :=
  let res := dur.toUnsigned ((l._x : Int) + (EXCLUSIVE : Int))
  let l1 := { l with _x := res }
  if res &&& MASK ≠ 0 then none
  else
    match l1._r.lock with
    | none => none
    | some r => some (⟨⟩, { l1 with _r := r })

/-- The destructor `~Exclusive()` (lines 42-45). -/
def Exclusive.release (_g : Exclusive) (l : OptimisticShareableLock) :
    OptimisticShareableLock :=
  { l with _x := dur.toUnsigned ((l._x : Int) - (EXCLUSIVE : Int)), _r := l._r.unlock }

/-! ### The counter under concurrent use

Every access to `_x` is one atomic read-modify-write, so the value of the counter is
what a sequence of these operations, in the order in which they take effect, makes of
it. The operations of the lock on `_x` are listed in `CounterOp`; `Counted` adds to the
lock the numbers of guards that the claims about the counter speak of. -/

/-- The atomic `++_l._x` of line 52; the new value of `_x` is the `res` of that line. -/
def preIncrement (l : OptimisticShareableLock) : OptimisticShareableLock :=
  { l with _x := dur.toUnsigned ((l._x : Int) + 1) }

/-- The atomic `_x.signedAdd(d)` of lines 31 and 43. -/
def signedAdd (l : OptimisticShareableLock) (d : Int) : OptimisticShareableLock :=
  { l with _x := dur.toUnsigned ((l._x : Int) + d) }

/-- The operations on the counter: `++_l._x` of a `Shared` constructor (line 52), the
`decrement()` with which that constructor gets out of the way (line 56), the
`decrement()` of `~Shared()` (line 62), `signedAdd(EXCLUSIVE)` of an `Exclusive`
constructor (line 31) and `signedAdd(-EXCLUSIVE)` of `~Exclusive()` (line 43). -/
inductive CounterOp where
  | sharedIncrement
  | sharedBackOut
  | sharedRelease
  | exclusiveAdd
  | exclusiveSubtract
deriving DecidableEq, Repr

/-- The lock together with the number `quick` of `Shared` guards that took the fast path
and are not yet destroyed, the number `backingOut` of `Shared` constructors that have
incremented `_x`, found it at `EXCLUSIVE` or above and not yet decremented it, and the
number `biased` of `Exclusive` guards that have added `EXCLUSIVE` and not yet
subtracted it. -/
structure Counted where
  lock : OptimisticShareableLock
  quick : Nat
  backingOut : Nat
  biased : Nat
deriving DecidableEq, Repr

/-- One operation on the counter; `none` when no thread is at that operation. A
destructor is allowed as soon as the first operation of its constructor is done, which
allows every order that the program has. -/
def Counted.step (s : Counted) : CounterOp → Option Counted
  | CounterOp.sharedIncrement =>
    if s.lock.preIncrement._x < EXCLUSIVE then
      some { s with lock := s.lock.preIncrement, quick := s.quick + 1 }
    else some { s with lock := s.lock.preIncrement, backingOut := s.backingOut + 1 }
  | CounterOp.sharedBackOut =>
    if 0 < s.backingOut then
      some { s with lock := s.lock.decrement, backingOut := s.backingOut - 1 }
    else none
  | CounterOp.sharedRelease =>
    if 0 < s.quick then some { s with lock := s.lock.decrement, quick := s.quick - 1 }
    else none
  | CounterOp.exclusiveAdd =>
    some { s with lock := s.lock.signedAdd (EXCLUSIVE : Int), biased := s.biased + 1 }
  | CounterOp.exclusiveSubtract =>
    if 0 < s.biased then
      some { s with lock := s.lock.signedAdd (-(EXCLUSIVE : Int)), biased := s.biased - 1 }
    else none

/-- A sequence of operations on the counter. -/
def Counted.run : List CounterOp → Counted → Option Counted
  | [], s => some s
  | op :: ops, s =>
    match s.step op with
    | none => none
    | some s1 => Counted.run ops s1

/-- A lock just constructed: the counter is 0 and there is no guard. -/
def Counted.init : Counted := ⟨⟨0, ⟨0, false⟩, 0⟩, 0, 0, 0⟩

/-- The counter is the number of guards counted in it, modulo `2^32`. -/
def Counted.Inv (s : Counted) : Prop :=
  s.lock._x = (s.quick + s.backingOut + EXCLUSIVE * s.biased) % 4294967296

/-- The states that sequences of operations lead to from a lock just constructed. -/
def Counted.Reachable (s : Counted) : Prop := ∃ ops, Counted.run ops Counted.init = some s

/-! ### The guards under concurrent use

The threads that use one lock take turns, each turn being one access to the lock: an
atomic operation on `_x` or a call on `_r`. A thread has at most one guard under way at a
time; `Guards` counts the threads by where they are in the constructor or the destructor
of their guard, and `GuardOp` lists the turns. -/

/-- The turns of a thread: in `Shared(l)` the `++_l._x` of line 52, the `decrement()` of
line 56 and the `lock_shared()` of line 57; `~Shared()` with `_quick` set (lines 61-62)
and with `_quick` clear (no access to the lock); in `Exclusive(l)` the
`signedAdd(EXCLUSIVE)` of line 31 with the test of line 32, the test of line 35 finding
no reader and the `lock()` of line 40; in `~Exclusive()` the `signedAdd(-EXCLUSIVE)` of
line 43 and the `unlock()` of line 44. -/
inductive GuardOp where
  | sharedIncrement
  | sharedBackOut
  | sharedLockShared
  | sharedDestroyQuick
  | sharedDestroySlow
  | exclusiveAdd
  | exclusiveSeesNoReader
  | exclusiveLock
  | exclusiveSubtract
  | exclusiveUnlock
deriving DecidableEq, Repr

/-- The lock and the number of threads at each place: `idle` with no guard under way;
`quick` holding a `Shared` guard of the fast path (line 52 done with `res < EXCLUSIVE`,
`~Shared()` not yet run); `backingOut` in `Shared(l)` before line 56; `wantShared` in
`Shared(l)` before line 57, or blocked in it; `slow` holding a `Shared` guard of the slow
path; `waiting` in the loop of lines 34-38 of `Exclusive(l)`; `wantLock` in `Exclusive(l)`
before line 40, or blocked in it; `exclusive` holding an `Exclusive` guard (constructor
returned, destructor not yet started); `unlocking` in `~Exclusive()` before line 44. -/
structure Guards where
  lock : OptimisticShareableLock
  idle : Nat
  quick : Nat
  backingOut : Nat
  wantShared : Nat
  slow : Nat
  waiting : Nat
  wantLock : Nat
  exclusive : Nat
  unlocking : Nat
deriving DecidableEq, Repr

/-- One turn of one thread; `none` when no thread is at that place or the thread there
is blocked: `lock_shared()` and `lock()` block as `SimpleRWLock` has it, and the loop of
lines 34-38 is left only by the test of line 35, whenever the thread gets to make it. -/
def Guards.step (s : Guards) : GuardOp → Option Guards
  | GuardOp.sharedIncrement =>
    if 0 < s.idle then
      if s.lock.preIncrement._x < EXCLUSIVE then
        some { s with lock := s.lock.preIncrement, idle := s.idle - 1, quick := s.quick + 1 }
      else
        some { s with lock := s.lock.preIncrement, idle := s.idle - 1,
                      backingOut := s.backingOut + 1 }
    else none
  | GuardOp.sharedBackOut =>
    if 0 < s.backingOut then
      some { s with lock := s.lock.decrement, backingOut := s.backingOut - 1,
                    wantShared := s.wantShared + 1 }
    else none
  | GuardOp.sharedLockShared =>
    if 0 < s.wantShared then
      match s.lock._r.lock_shared with
      | none => none
      | some r =>
        some { s with lock := { s.lock with _r := r }, wantShared := s.wantShared - 1,
                      slow := s.slow + 1 }
    else none
  | GuardOp.sharedDestroyQuick =>
    if 0 < s.quick then
      some { s with lock := s.lock.decrement, quick := s.quick - 1, idle := s.idle + 1 }
    else none
  | GuardOp.sharedDestroySlow =>
    if 0 < s.slow then some { s with slow := s.slow - 1, idle := s.idle + 1 } else none
  | GuardOp.exclusiveAdd =>
    if 0 < s.idle then
      if (s.lock.signedAdd (EXCLUSIVE : Int))._x &&& MASK ≠ 0 then
        some { s with lock := s.lock.signedAdd (EXCLUSIVE : Int), idle := s.idle - 1,
                      waiting := s.waiting + 1 }
      else
        some { s with lock := s.lock.signedAdd (EXCLUSIVE : Int), idle := s.idle - 1,
                      wantLock := s.wantLock + 1 }
    else none
  | GuardOp.exclusiveSeesNoReader =>
    if 0 < s.waiting ∧ s.lock._x &&& MASK = 0 then
      some { s with waiting := s.waiting - 1, wantLock := s.wantLock + 1 }
    else none
  | GuardOp.exclusiveLock =>
    if 0 < s.wantLock then
      match s.lock._r.lock with
      | none => none
      | some r =>
        some { s with lock := { s.lock with _r := r }, wantLock := s.wantLock - 1,
                      exclusive := s.exclusive + 1 }
    else none
  | GuardOp.exclusiveSubtract =>
    if 0 < s.exclusive then
      some { s with lock := s.lock.signedAdd (-(EXCLUSIVE : Int)),
                    exclusive := s.exclusive - 1, unlocking := s.unlocking + 1 }
    else none
  | GuardOp.exclusiveUnlock =>
    if 0 < s.unlocking then
      some { s with lock := { s.lock with _r := s.lock._r.unlock },
                    unlocking := s.unlocking - 1, idle := s.idle + 1 }
    else none

/-- A sequence of turns: an interleaving of the threads. -/
def Guards.run : List GuardOp → Guards → Option Guards
  | [], s => some s
  | op :: ops, s =>
    match s.step op with
    | none => none
    | some s1 => Guards.run ops s1

/-- A lock just constructed, and `n` threads with no guard under way. -/
def Guards.init (n : Nat) : Guards := ⟨⟨0, ⟨0, false⟩, 0⟩, n, 0, 0, 0, 0, 0, 0, 0, 0⟩

/-- The states that the interleavings of `n` threads lead to. -/
def Guards.Reachable (n : Nat) (s : Guards) : Prop :=
  ∃ ops, Guards.run ops (Guards.init n) = some s

/-- Some thread holds an `Exclusive` guard while some thread holds a `Shared` guard, of
the fast path or of the slow path. -/
def Guards.overlap (s : Guards) : Prop := 0 < s.exclusive ∧ (0 < s.quick ∨ 0 < s.slow)

/-- What holds in every state that `n` threads reach, for `n` up to 65536: the threads
are `n`; the counter is the number of threads counted in it; the writer side of `_r` is
held by the one thread between line 40 and line 44, if any; the holders of the slow path
are among the readers of `_r`, which has no reader while its writer side is held; and no
thread holds the fast path while an `Exclusive` constructor is past its loop. -/
def Guards.Inv (n : Nat) (s : Guards) : Prop :=
  s.idle + s.quick + s.backingOut + s.wantShared + s.slow + s.waiting + s.wantLock +
      s.exclusive + s.unlocking = n ∧
  s.lock._x =
    (s.quick + s.backingOut + EXCLUSIVE * (s.waiting + s.wantLock + s.exclusive)) %
      4294967296 ∧
  ((s.lock._r.writer = true ∧ s.exclusive + s.unlocking = 1) ∨
    (s.lock._r.writer = false ∧ s.exclusive + s.unlocking = 0)) ∧
  s.slow ≤ s.lock._r.readers ∧
  (s.lock._r.writer = true → s.lock._r.readers = 0) ∧
  (0 < s.wantLock + s.exclusive → s.quick = 0)

end OptimisticShareableLock

namespace dur

/-! ## Lemmas on the coalescing loop -/

theorem encodeRanges_singleton {σ : Type} (enc : WriteIntent → σ → Outcome × σ)
    (r : WriteIntent) (st : σ) : encodeRanges enc [r] st = enc r st := by
  simp only [encodeRanges]
  rcases h : enc r st with ⟨o, st1⟩
  cases o <;> rfl

/-- Once the first element is read, the loop applies `enc` to the ranges of `coalesce`. -/
theorem prepBasicWritesLoop_eq {σ : Type} (enc : WriteIntent → σ → Outcome × σ)
    (rest : List WriteIntent) (last : WriteIntent) (st : σ) :
    prepBasicWritesLoop enc false rest last st = encodeRanges enc (coalesce last rest) st := by
  induction rest generalizing last st with
  | nil => simp [prepBasicWritesLoop, coalesce, encodeRanges_singleton]
  | cons i rest ih =>
    simp only [prepBasicWritesLoop, coalesce]
    split
    · exact ih _ _
    · simp only [Bool.false_eq_true, if_false, encodeRanges]
      rcases h : enc last st with ⟨o, st1⟩
      cases o <;> simp [ih]

/-- The first element becomes the accumulator without anything being flushed. -/
theorem prepBasicWritesLoop_begin {σ : Type} (enc : WriteIntent → σ → Outcome × σ)
    (i : WriteIntent) (rest : List WriteIntent) (st : σ) :
    prepBasicWritesLoop enc true (i :: rest) WriteIntent.empty st =
      encodeRanges enc (coalesce i rest) st := by
  simp [prepBasicWritesLoop, WriteIntent.empty, WriteIntent.end_, prepBasicWritesLoop_eq]

theorem encodeRanges_record (xs acc : List WriteIntent) :
    encodeRanges (fun r (acc : List WriteIntent) => (Outcome.ok, acc ++ [r])) xs acc =
      (Outcome.ok, acc ++ xs) := by
  induction xs generalizing acc with
  | nil => simp [encodeRanges]
  | cons x xs ih => simp [encodeRanges, ih]

theorem handedRanges_cons (i : WriteIntent) (rest : List WriteIntent) :
    handedRanges (i :: rest) = coalesce i rest := by
  simp [handedRanges, prepBasicWritesLoop_begin, encodeRanges_record]

/-- The loop of `prepBasicWrites` applies the action to the handed ranges in turn. -/
theorem prepBasicWritesLoop_handed {σ : Type} (enc : WriteIntent → σ → Outcome × σ)
    (intents : List WriteIntent) (hne : intents ≠ []) (st : σ) :
    prepBasicWritesLoop enc true intents WriteIntent.empty st =
      encodeRanges enc (handedRanges intents) st := by
  cases intents with
  | nil => exact absurd rfl hne
  | cons i rest => rw [handedRanges_cons, prepBasicWritesLoop_begin]

theorem absorb_end (last i : WriteIntent) :
    (last.absorb i).end_ = max last.end_ i.end_ := by
  simp only [WriteIntent.absorb, WriteIntent.end_, toUnsigned]
  omega

theorem absorb_start_ge (last i : WriteIntent) :
    min last.start i.start ≤ (last.absorb i).start := by
  simp only [WriteIntent.absorb, WriteIntent.end_, toUnsigned]
  omega

theorem absorb_start (last i : WriteIntent) (h : last.start ≤ i.start)
    (hfit : max last.end_ i.end_ - min last.start i.start < 4294967296) :
    (last.absorb i).start = last.start := by
  simp only [WriteIntent.absorb, WriteIntent.end_, toUnsigned] at *
  omega

theorem absorb_length (last i : WriteIntent) (h : last.start ≤ i.start)
    (hfit : max last.end_ i.end_ - min last.start i.start < 4294967296) :
    (last.absorb i).length = max last.end_ i.end_ - last.start := by
  simp only [WriteIntent.absorb, WriteIntent.end_, toUnsigned] at *
  omega

theorem absorb_covers (last i : WriteIntent) (h : last.start ≤ i.start)
    (ho : i.start < last.end_)
    (hfit : max last.end_ i.end_ - min last.start i.start < 4294967296) (x : Nat) :
    (last.absorb i).covers x ↔ last.covers x ∨ i.covers x := by
  have h1 := absorb_start last i h hfit
  have h2 := absorb_length last i h hfit
  simp only [WriteIntent.covers, h1, h2]
  simp only [WriteIntent.end_] at *
  omega

/-- The order that `coalesce` keeps, whatever the lengths: each range ends at or before
the start of the next, and none starts below a bound on the starts of the input. -/
theorem coalesce_order (rest : List WriteIntent) :
    ∀ (last : WriteIntent) (L : Nat), L ≤ last.start → (∀ i ∈ rest, L ≤ i.start) →
      rest.Pairwise (fun a b => a.start ≤ b.start) →
      (coalesce last rest).Pairwise (fun a b => a.end_ ≤ b.start) ∧
      (∀ r ∈ coalesce last rest, L ≤ r.start) := by
  induction rest with
  | nil =>
    intro last L hL _ _
    simp [coalesce, hL]
  | cons i rest ih =>
    intro last L hL hrest hs
    have hi : L ≤ i.start := hrest i (List.mem_cons_self _ _)
    rw [List.pairwise_cons] at hs
    simp only [coalesce]
    split
    · have hge := absorb_start_ge last i
      exact ih (last.absorb i) L (by omega)
        (fun j hj => hrest j (List.mem_cons_of_mem _ hj)) hs.2
    · rename_i ho
      obtain ⟨h1, h2⟩ := ih i i.start (le_refl _) hs.1 hs.2
      refine ⟨?_, ?_⟩
      · rw [List.pairwise_cons]
        refine ⟨fun r hr => ?_, h1⟩
        have := h2 r hr
        omega
      · intro r hr
        rcases List.mem_cons.1 hr with rfl | hr
        · exact hL
        · exact le_trans hi (h2 r hr)

/-- What `coalesce` keeps when no merged range reaches `2 ^ 32` bytes: its ranges cover
the bytes of the input. -/
theorem coalesce_spec (rest : List WriteIntent) :
    ∀ last : WriteIntent, (∀ i ∈ rest, last.start ≤ i.start) →
      rest.Pairwise (fun a b => a.start ≤ b.start) → mergesFit last rest = true →
      (∀ x, (∃ r ∈ coalesce last rest, r.covers x) ↔
        (last.covers x ∨ ∃ i ∈ rest, i.covers x)) := by
  induction rest with
  | nil =>
    intro last _ _ _
    simp [coalesce]
  | cons i rest ih =>
    intro last hlast hs hfit
    have hi : last.start ≤ i.start := hlast i (List.mem_cons_self _ _)
    rw [List.pairwise_cons] at hs
    simp only [mergesFit] at hfit
    simp only [coalesce]
    split
    · rename_i ho
      simp only [ho, if_true, Bool.and_eq_true, decide_eq_true_eq] at hfit
      have hst := absorb_start last i hi hfit.1
      have h3 := ih (last.absorb i)
        (fun j hj => by rw [hst]; exact hlast j (List.mem_cons_of_mem _ hj)) hs.2 hfit.2
      intro x
      rw [h3 x, absorb_covers last i hi ho hfit.1 x]
      simp only [List.mem_cons, exists_eq_or_imp]
      tauto
    · rename_i ho
      simp only [ho, if_false] at hfit
      have h3 := ih i hs.1 hs.2 hfit
      intro x
      simp only [List.mem_cons, exists_eq_or_imp]
      rw [h3 x]

theorem coalesce_pos (rest : List WriteIntent) :
    ∀ last : WriteIntent, 0 < last.length → (∀ i ∈ rest, 0 < i.length) →
      (∀ i ∈ rest, last.start ≤ i.start) →
      rest.Pairwise (fun a b => a.start ≤ b.start) → mergesFit last rest = true →
      ∀ r ∈ coalesce last rest, 0 < r.length := by
  induction rest with
  | nil =>
    intro last hl _ _ _ _ r hr
    simp only [coalesce, List.mem_singleton] at hr
    exact hr ▸ hl
  | cons i rest ih =>
    intro last hl hrest hlast hs hfit r hr
    have hi : last.start ≤ i.start := hlast i (List.mem_cons_self _ _)
    rw [List.pairwise_cons] at hs
    simp only [mergesFit] at hfit
    simp only [coalesce] at hr
    split at hr
    · rename_i ho
      simp only [ho, if_true, Bool.and_eq_true, decide_eq_true_eq] at hfit
      have hst := absorb_start last i hi hfit.1
      have hlen := absorb_length last i hi hfit.1
      refine ih (last.absorb i) ?_ (fun j hj => hrest j (List.mem_cons_of_mem _ hj))
        (fun j hj => by rw [hst]; exact hlast j (List.mem_cons_of_mem _ hj)) hs.2 hfit.2 r hr
      rw [hlen]
      simp only [WriteIntent.end_]
      omega
    · rename_i ho
      simp only [ho, if_false] at hfit
      rcases List.mem_cons.1 hr with rfl | hr
      · exact hl
      · exact ih i (hrest i (List.mem_cons_self _ _))
          (fun j hj => hrest j (List.mem_cons_of_mem _ hj)) hs.1 hs.2 hfit r hr

/-- Ranges in order, of positive length, none ending where the next starts, are
separated by gaps. -/
theorem pairwise_gap_of_chain (l : List WriteIntent)
    (hle : l.Pairwise (fun a b => a.end_ ≤ b.start)) (hpos : ∀ r ∈ l, 0 < r.length)
    (hadj : l.Chain' (fun a b => a.end_ ≠ b.start)) :
    l.Pairwise (fun a b => a.end_ < b.start) := by
  induction l with
  | nil => exact List.Pairwise.nil
  | cons a l ih =>
    rw [List.pairwise_cons] at hle ⊢
    refine ⟨?_, ih hle.2 (fun r hr => hpos r (List.mem_cons_of_mem _ hr)) hadj.tail⟩
    intro c hc
    cases l with
    | nil => cases hc
    | cons b l =>
      have hab : a.end_ ≠ b.start := (List.chain'_cons.1 hadj).1
      have hab2 := hle.1 b (List.mem_cons_self _ _)
      rcases List.mem_cons.1 hc with rfl | hc
      · omega
      · have hb := (List.pairwise_cons.1 hle.2).1 c hc
        have hbpos := hpos b (List.mem_cons_of_mem _ (List.mem_cons_self _ _))
        simp only [WriteIntent.end_] at *
        omega

/-- A family of ranges that stays inside a byte set `S` needs one range for each of the
separated ranges whose start it covers and whose end lies outside `S`. -/
theorem length_le_of_separated (S : Nat → Prop) (out : List WriteIntent) :
    ∀ cs : List WriteIntent, out.Pairwise (fun a b => a.end_ < b.start) →
      (∀ r ∈ out, 0 < r.length ∧ ¬ S r.end_ ∧ ∃ c ∈ cs, c.covers r.start) →
      (∀ c ∈ cs, ∀ x, c.covers x → S x) → out.length ≤ cs.length := by
  induction out with
  | nil => intro cs _ _ _; simp
  | cons r out ih =>
    intro cs hp hout hcs
    rw [List.pairwise_cons] at hp
    obtain ⟨hrpos, hrend, c, hc, hcr⟩ := hout r (List.mem_cons_self _ _)
    have hlen : (cs.erase c).length = cs.length - 1 := List.length_erase_of_mem hc
    have hcpos : 0 < cs.length := List.length_pos_of_mem hc
    have := ih (cs.erase c) hp.2 (fun r2 hr2 => by
      obtain ⟨h1, h2, c2, hc2, hcov⟩ := hout r2 (List.mem_cons_of_mem _ hr2)
      refine ⟨h1, h2, c2, ?_, hcov⟩
      have hne : c2 ≠ c := by
        rintro rfl
        apply hrend
        apply hcs c2 hc2
        have := hp.1 r2 hr2
        simp only [WriteIntent.covers, WriteIntent.end_] at *
        omega
      exact (List.mem_erase_of_ne hne).2 hc2)
      (fun c2 hc2 => hcs c2 (List.mem_of_mem_erase hc2))
    simp only [List.length_cons]
    omega

/-- The end of a range of a separated family is covered by no range of the family. -/
theorem end_not_covered (out : List WriteIntent)
    (hp : out.Pairwise (fun a b => a.end_ < b.start)) (r : WriteIntent) (hr : r ∈ out) :
    ¬ ∃ r2 ∈ out, r2.covers r.end_ := by
  rintro ⟨r2, hr2, hcov⟩
  have hsym : out.Pairwise (fun a b => a.end_ < b.start ∨ b.end_ < a.start) :=
    hp.imp (fun h => Or.inl h)
  by_cases he : r = r2
  · subst he
    simp only [WriteIntent.covers, WriteIntent.end_] at hcov
    omega
  · have := hsym.forall (fun _ _ h => h.symm) hr hr2 he
    simp only [WriteIntent.covers, WriteIntent.end_] at *
    omega

/-- With nothing spooled and a non-empty set of intents, `prepBasicWrites` applies the
encoder to the handed ranges in turn, starting from the default path cursor. -/
theorem prepBasicWrites_eq_encodeRanges (env : Env) (fuel : Nat) (st : JournalState)
    (hne : env.intentsSorted ≠ []) (hsp : env.nothingSpooled = true) :
    prepBasicWrites env fuel st =
      encodeRanges (prepBasicWrite_inlock fuel) (handedRanges env.intentsSorted)
        { st with lastDbPath := default } := by
  have hemp : env.intentsSorted.isEmpty = false := by
    cases h : env.intentsSorted with
    | nil => exact absurd h hne
    | cons a l => rfl
  simp only [prepBasicWrites, hsp, hemp, Bool.true_eq_false, Bool.false_eq_true, if_false]
  exact prepBasicWritesLoop_handed _ _ hne _

/-! ## Coalescing (C1, C8) -/

/-- C1, as the code has it: for every non-empty sequence of ranges sorted by start,
`prepBasicWrites` applies the encoder to the ranges of `handedRanges` in turn, and these
are sorted by start and pairwise without a common byte; when no merged range reaches
`2 ^ 32` bytes, the length of a `WriteIntent` having 32 bits, they cover exactly the
bytes of the input; the input `[(100,50), (140,10), (200,5)]` yields
`[(100,50), (200,5)]`. -/
theorem prepBasicWrites_coalesces (intents : List WriteIntent) (hne : intents ≠ [])
    (hs : intents.Pairwise (fun a b => a.start ≤ b.start)) :
    (∀ (env : Env) (fuel : Nat) (st : JournalState),
      env.intentsSorted = intents → env.nothingSpooled = true →
      prepBasicWrites env fuel st =
        encodeRanges (prepBasicWrite_inlock fuel) (handedRanges intents)
          { st with lastDbPath := default }) ∧
    (handedRanges intents).Pairwise (fun a b => a.start ≤ b.start) ∧
    (handedRanges intents).Pairwise (fun a b => ∀ x, ¬ (a.covers x ∧ b.covers x)) ∧
    (unionsFit intents = true →
      ∀ x, (∃ r ∈ handedRanges intents, r.covers x) ↔ ∃ i ∈ intents, i.covers x) ∧
    handedRanges [⟨100, 50⟩, ⟨140, 10⟩, ⟨200, 5⟩] = [⟨100, 50⟩, ⟨200, 5⟩] := by
  refine ⟨?_, ?_, ?_, ?_, by decide⟩
  · intro env fuel st he hsp
    subst he
    exact prepBasicWrites_eq_encodeRanges env fuel st hne hsp
  all_goals
    cases intents with
    | nil => exact absurd rfl hne
    | cons i rest =>
      rw [List.pairwise_cons] at hs
      rw [handedRanges_cons]
      obtain ⟨h1, _⟩ := coalesce_order rest i i.start (le_refl _) hs.1 hs.2
      first
        | exact h1.imp (fun {a b} h => by simp only [WriteIntent.end_] at h; omega)
        | exact h1.imp (fun {a b} h x => by
            simp only [WriteIntent.end_, WriteIntent.covers] at *; omega)
        | (intro hfit x
           rw [coalesce_spec rest i hs.1 hs.2 hfit x]
           simp only [List.mem_cons, exists_eq_or_imp])

/-- C1, witness: the theorem at the spec's example input. -/
theorem prepBasicWrites_coalesces_witness :
    ([⟨100, 50⟩, ⟨140, 10⟩, ⟨200, 5⟩] : List WriteIntent) ≠ [] ∧
    ([⟨100, 50⟩, ⟨140, 10⟩, ⟨200, 5⟩] : List WriteIntent).Pairwise
      (fun a b => a.start ≤ b.start) ∧
    unionsFit [⟨100, 50⟩, ⟨140, 10⟩, ⟨200, 5⟩] = true ∧
    (handedRanges [⟨100, 50⟩, ⟨140, 10⟩, ⟨200, 5⟩]).Pairwise
      (fun a b => ∀ x, ¬ (a.covers x ∧ b.covers x)) ∧
    ((∃ r ∈ handedRanges [⟨100, 50⟩, ⟨140, 10⟩, ⟨200, 5⟩], r.covers 145) ↔
      ∃ i ∈ ([⟨100, 50⟩, ⟨140, 10⟩, ⟨200, 5⟩] : List WriteIntent), i.covers 145) :=
  ⟨by decide, by decide, by decide,
    (prepBasicWrites_coalesces [⟨100, 50⟩, ⟨140, 10⟩, ⟨200, 5⟩] (by decide) (by decide)).2.2.1,
    (prepBasicWrites_coalesces [⟨100, 50⟩, ⟨140, 10⟩, ⟨200, 5⟩] (by decide)
      (by decide)).2.2.2.1 (by decide) 145⟩

/-- C1, counterexample: on the input `[(100,50), (140,10), (200,5)]` the encoder is handed
`[(100,50), (200,5)]`, not the `[(100,60), (200,5)]` of the claim, whose first range
would cover the bytes 150 to 159 that no input range covers. And on the sorted input
`[(0, 2^32-1), (2^32-2, 2^32-1)]` the union has `2^33-3` bytes, its length is narrowed
to `2^32-3`, and the encoder is handed `[(2^32, 2^32-3)]`, which does not cover the
byte 0 of the first input range. -/
theorem prepBasicWrites_example_differs :
    handedRanges [⟨100, 50⟩, ⟨140, 10⟩, ⟨200, 5⟩] ≠ [⟨100, 60⟩, ⟨200, 5⟩] ∧
    (∀ (fuel : Nat) (st : JournalState),
      prepBasicWrites ⟨true, true, true, 0, 0, [], [⟨100, 50⟩, ⟨140, 10⟩, ⟨200, 5⟩]⟩ fuel st =
        encodeRanges (prepBasicWrite_inlock fuel) [⟨100, 50⟩, ⟨200, 5⟩]
          { st with lastDbPath := default }) ∧
    (⟨100, 60⟩ : WriteIntent).covers 155 ∧
    (¬ ∃ i ∈ ([⟨100, 50⟩, ⟨140, 10⟩, ⟨200, 5⟩] : List WriteIntent), i.covers 155) ∧
    ([⟨0, 4294967295⟩, ⟨4294967294, 4294967295⟩] : List WriteIntent).Pairwise
      (fun a b => a.start ≤ b.start) ∧
    handedRanges [⟨0, 4294967295⟩, ⟨4294967294, 4294967295⟩] =
      [⟨4294967296, 4294967293⟩] ∧
    (∃ i ∈ ([⟨0, 4294967295⟩, ⟨4294967294, 4294967295⟩] : List WriteIntent), i.covers 0) ∧
    ¬ ∃ r ∈ handedRanges [⟨0, 4294967295⟩, ⟨4294967294, 4294967295⟩], r.covers 0 := by
  refine ⟨by decide, fun fuel st => ?_, by decide, by decide, by decide, by decide,
    by decide, by decide⟩
  rw [prepBasicWrites_eq_encodeRanges _ fuel st (by decide) rfl]
  rfl

/-- C8, as the code has it: for every non-empty sequence of ranges of positive length
sorted by start, each range handed to the encoder ends at or before the start of the
next one, and when no merged range reaches `2 ^ 32` bytes (the length of a
`WriteIntent` having 32 bits) and none of the ranges handed over ends exactly where the
next one starts, no family of ranges covering exactly the same bytes has fewer
ranges. -/
theorem prepBasicWrites_minimal_when_separated (intents : List WriteIntent)
    (hne : intents ≠ []) (hs : intents.Pairwise (fun a b => a.start ≤ b.start))
    (hpos : ∀ i ∈ intents, 0 < i.length) :
    (handedRanges intents).Chain' (fun a b => a.end_ ≤ b.start) ∧
    (unionsFit intents = true →
      (handedRanges intents).Chain' (fun a b => a.end_ ≠ b.start) →
      ∀ cs : List WriteIntent,
        (∀ x, (∃ c ∈ cs, c.covers x) ↔ ∃ r ∈ handedRanges intents, r.covers x) →
        (handedRanges intents).length ≤ cs.length) := by
  cases intents with
  | nil => exact absurd rfl hne
  | cons i rest =>
    rw [List.pairwise_cons] at hs
    rw [handedRanges_cons]
    obtain ⟨h1, _⟩ := coalesce_order rest i i.start (le_refl _) hs.1 hs.2
    refine ⟨List.Pairwise.chain' h1, fun hfit hadj cs hcov => ?_⟩
    have hp := coalesce_pos rest i (hpos i (List.mem_cons_self _ _))
      (fun j hj => hpos j (List.mem_cons_of_mem _ hj)) hs.1 hs.2 hfit
    have hgap := pairwise_gap_of_chain _ h1 hp hadj
    refine length_le_of_separated (fun x => ∃ r ∈ coalesce i rest, r.covers x) _ cs hgap
      (fun r hr => ⟨hp r hr, end_not_covered _ hgap r hr, ?_⟩)
      (fun c hc x hx => (hcov x).1 ⟨c, hc, hx⟩)
    have : ∃ r2 ∈ coalesce i rest, r2.covers r.start :=
      ⟨r, hr, by have := hp r hr; simp only [WriteIntent.covers]; omega⟩
    exact (hcov r.start).2 this

/-- C8, witness: the theorem at `[(100,50), (140,10), (200,5)]`, with the output itself as
the competing family. -/
theorem prepBasicWrites_minimal_when_separated_witness :
    ([⟨100, 50⟩, ⟨140, 10⟩, ⟨200, 5⟩] : List WriteIntent) ≠ [] ∧
    unionsFit [⟨100, 50⟩, ⟨140, 10⟩, ⟨200, 5⟩] = true ∧
    (handedRanges [⟨100, 50⟩, ⟨140, 10⟩, ⟨200, 5⟩]).length ≤
      ([⟨100, 50⟩, ⟨200, 5⟩] : List WriteIntent).length :=
  ⟨by decide, by decide,
    (prepBasicWrites_minimal_when_separated [⟨100, 50⟩, ⟨140, 10⟩, ⟨200, 5⟩]
      (by decide) (by decide) (by decide)).2 (by decide)
      (by
        rw [show handedRanges [⟨100, 50⟩, ⟨140, 10⟩, ⟨200, 5⟩] = [⟨100, 50⟩, ⟨200, 5⟩]
          from by decide]
        simp [WriteIntent.end_])
      [⟨100, 50⟩, ⟨200, 5⟩] (fun _ => Iff.rfl)⟩

/-- C8, counterexample: the adjacent ranges `(100,10)` and `(110,10)` are handed to the
encoder as two ranges, although the single range `(100,20)` covers the same bytes. And
the overlapping ranges `(0, 2^32-1)` and `(2^32-2, 2)`, whose union has `2^32` bytes, are
handed over as the one range `(2^32, 0)`, the length being narrowed to 0: it covers no
byte, as the empty family does with fewer ranges. -/
theorem prepBasicWrites_keeps_adjacent_ranges :
    ([⟨100, 10⟩, ⟨110, 10⟩] : List WriteIntent).Pairwise (fun a b => a.start ≤ b.start) ∧
    handedRanges [⟨100, 10⟩, ⟨110, 10⟩] = [⟨100, 10⟩, ⟨110, 10⟩] ∧
    (∀ x, (∃ c ∈ ([⟨100, 20⟩] : List WriteIntent), c.covers x) ↔
      ∃ r ∈ handedRanges [⟨100, 10⟩, ⟨110, 10⟩], r.covers x) ∧
    ([⟨100, 20⟩] : List WriteIntent).length < (handedRanges [⟨100, 10⟩, ⟨110, 10⟩]).length ∧
    ([⟨0, 4294967295⟩, ⟨4294967294, 2⟩] : List WriteIntent).Pairwise
      (fun a b => a.start ≤ b.start) ∧
    handedRanges [⟨0, 4294967295⟩, ⟨4294967294, 2⟩] = [⟨4294967296, 0⟩] ∧
    (∀ x, (∃ c ∈ ([] : List WriteIntent), c.covers x) ↔
      ∃ r ∈ handedRanges [⟨0, 4294967295⟩, ⟨4294967294, 2⟩], r.covers x) ∧
    ([] : List WriteIntent).length <
      (handedRanges [⟨0, 4294967295⟩, ⟨4294967294, 2⟩]).length := by
  refine ⟨by decide, by decide, fun x => ?_, by decide, by decide, by decide, fun x => ?_,
    by decide⟩
  · have h : handedRanges [⟨100, 10⟩, ⟨110, 10⟩] = [⟨100, 10⟩, ⟨110, 10⟩] := by decide
    rw [h]
    simp only [List.mem_cons, List.mem_singleton, exists_eq_or_imp, exists_eq_left,
      WriteIntent.covers, List.not_mem_nil, false_and, exists_false, or_false]
    omega
  · have h : handedRanges [⟨0, 4294967295⟩, ⟨4294967294, 2⟩] = [⟨4294967296, 0⟩] := by
      decide
    rw [h]
    simp only [List.mem_singleton, exists_eq_left, WriteIntent.covers, List.not_mem_nil,
      false_and, exists_false, false_iff]
    omega

/-! ## Lemmas on the encoder -/

theorem tagWillNeedRemap_bb (st : JournalState) (f : Nat) :
    (st.tagWillNeedRemap f).bb = st.bb := by
  unfold JournalState.tagWillNeedRemap JournalState.setWillNeedRemap
  split <;> rfl

theorem tagWillNeedRemap_lastDbPath (st : JournalState) (f : Nat) :
    (st.tagWillNeedRemap f).lastDbPath = st.lastDbPath := by
  unfold JournalState.tagWillNeedRemap JournalState.setWillNeedRemap
  split <;> rfl

theorem tagWillNeedRemap_find (st : JournalState) (f : Nat) :
    (st.tagWillNeedRemap f).privateViews.find_inlock = st.privateViews.find_inlock := by
  unfold JournalState.tagWillNeedRemap JournalState.setWillNeedRemap
  split <;> rfl

theorem tagWillNeedRemap_mmf (st : JournalState) (f g : Nat) :
    ((st.tagWillNeedRemap f).privateViews.mmf g).length = (st.privateViews.mmf g).length ∧
    ((st.tagWillNeedRemap f).privateViews.mmf g).fileSuffixNo =
      (st.privateViews.mmf g).fileSuffixNo ∧
    ((st.tagWillNeedRemap f).privateViews.mmf g).relativePath =
      (st.privateViews.mmf g).relativePath := by
  unfold JournalState.tagWillNeedRemap JournalState.setWillNeedRemap
  split
  · by_cases h : g = f <;> simp [h]
  · simp

theorem makeJEntry_congr (i : WriteIntent) (m1 m2 : DurableMappedFile) (ofs : Nat)
    (h1 : m1.length = m2.length) (h2 : m1.fileSuffixNo = m2.fileSuffixNo)
    (h3 : m1.relativePath = m2.relativePath) : makeJEntry i m1 ofs = makeJEntry i m2 ofs := by
  simp [makeJEntry, h1, h2, h3]

theorem journalDbContext_bb (st : JournalState) (p : RelativePath) :
    (st.journalDbContext p).bb = st.bb ++ contextItems st.lastDbPath p := by
  unfold JournalState.journalDbContext contextItems
  by_cases h1 : p = localPath
  · simp [h1]
  · by_cases h2 : p = st.lastDbPath <;> simp [h1, h2]

theorem journalDbContext_lastDbPath (st : JournalState) (p : RelativePath) :
    (st.journalDbContext p).lastDbPath = nextCursor st.lastDbPath p := by
  unfold JournalState.journalDbContext nextCursor
  by_cases h1 : p = localPath
  · simp [h1]
  · by_cases h2 : p = st.lastDbPath <;> simp [h1, h2]

theorem journalDbContext_privateViews (st : JournalState) (p : RelativePath) :
    (st.journalDbContext p).privateViews = st.privateViews := by
  unfold JournalState.journalDbContext
  by_cases h1 : p = localPath
  · simp [h1]
  · by_cases h2 : p = st.lastDbPath <;> simp [h1, h2]

theorem afterEntry_bb (st : JournalState) (f : Nat) (e : JEntry) (src : Nat) :
    (afterEntry st f e src).bb =
      st.bb ++ contextItems st.lastDbPath (st.privateViews.mmf f).relativePath ++
        [BufItem.entry e, BufItem.buf src e.len] := by
  simp [afterEntry, journalDbContext_bb, tagWillNeedRemap_bb, tagWillNeedRemap_lastDbPath]

theorem afterEntry_lastDbPath (st : JournalState) (f : Nat) (e : JEntry) (src : Nat) :
    (afterEntry st f e src).lastDbPath =
      nextCursor st.lastDbPath (st.privateViews.mmf f).relativePath := by
  simp [afterEntry, journalDbContext_lastDbPath, tagWillNeedRemap_lastDbPath]

theorem afterEntry_privateViews (st : JournalState) (f : Nat) (e : JEntry) (src : Nat) :
    (afterEntry st f e src).privateViews = (st.tagWillNeedRemap f).privateViews := by
  simp [afterEntry, journalDbContext_privateViews]

theorem body_unresolved (i : WriteIntent) (st : JournalState)
    (h : st.privateViews.find_inlock i.start = none) :
    prepBasicWrite_body i st = BodyResult.failed Outcome.journalingFailure st := by
  simp [prepBasicWrite_body, findMMF_inlock, h]

theorem body_bad_ofs (i : WriteIntent) (st : JournalState) (f ofs : Nat)
    (h : st.privateViews.find_inlock i.start = some (f, ofs)) (hofs : ¬ ofs ≤ 0x80000000) :
    prepBasicWrite_body i st =
      BodyResult.failed (Outcome.verifyFailed Check.ofsInRange) (st.tagWillNeedRemap f) := by
  simp [prepBasicWrite_body, findMMF_inlock, h, hofs]

theorem body_resolved (i : WriteIntent) (st : JournalState) (f ofs : Nat)
    (h : st.privateViews.find_inlock i.start = some (f, ofs)) (hofs : ofs ≤ 0x80000000) :
    prepBasicWrite_body i st =
      if (makeJEntry i (st.privateViews.mmf f) ofs).len ≠ i.length then
        BodyResult.split
          ⟨i.start + (makeJEntry i (st.privateViews.mmf f) ofs).len,
            i.length - (makeJEntry i (st.privateViews.mmf f) ofs).len⟩
          (afterEntry st f (makeJEntry i (st.privateViews.mmf f) ofs) i.start)
      else
        BodyResult.done (afterEntry st f (makeJEntry i (st.privateViews.mmf f) ofs) i.start) := by
  obtain ⟨m1, m2, m3⟩ := tagWillNeedRemap_mmf st f f
  have he := makeJEntry_congr i _ _ ofs m1 m2 m3
  simp only [prepBasicWrite_body, findMMF_inlock, h, hofs, if_true, he, afterEntry, m3]

theorem entryLens_append (xs ys : List BufItem) :
    entryLens (xs ++ ys) = entryLens xs ++ entryLens ys := by
  induction xs with
  | nil => rfl
  | cons x xs ih => cases x <;> simp [entryLens, ih]

theorem payloads_append (xs ys : List BufItem) :
    payloads (xs ++ ys) = payloads xs ++ payloads ys := by
  induction xs with
  | nil => rfl
  | cons x xs ih => cases x <;> simp [payloads, ih]

theorem entryLens_contextItems (c p : RelativePath) : entryLens (contextItems c p) = [] := by
  unfold contextItems
  split <;> rfl

theorem payloads_contextItems (c p : RelativePath) : payloads (contextItems c p) = [] := by
  unfold contextItems
  split <;> rfl

theorem makeJEntry_len (i : WriteIntent) (m : DurableMappedFile) (ofs : Nat) :
    (makeJEntry i m ofs).len = min i.length (toUnsigned ((m.length : Int) - (ofs : Int))) := rfl

theorem makeJEntry_len_le (i : WriteIntent) (m : DurableMappedFile) (ofs : Nat) :
    (makeJEntry i m ofs).len ≤ i.length := by
  simp only [makeJEntry]
  exact Nat.min_le_left _ _

theorem prepBasicWrite_inlock_succ (fuel : Nat) (i : WriteIntent) (st : JournalState) :
    prepBasicWrite_inlock (fuel + 1) i st =
      match prepBasicWrite_body i st with
      | BodyResult.failed o st1 => (o, st1)
      | BodyResult.done st1 => (Outcome.ok, st1)
      | BodyResult.split next st1 => prepBasicWrite_inlock fuel next st1 := rfl

theorem prepBasicWrite_calls_succ (fuel : Nat) (i : WriteIntent) (st : JournalState) :
    prepBasicWrite_calls (fuel + 1) i st =
      (i, st) ::
        match prepBasicWrite_body i st with
        | BodyResult.split next st1 => prepBasicWrite_calls fuel next st1
        | _ => [] := rfl

/-- With every call finding its address with room left, the Entries written for a range
add up to the range and their payloads follow one another from its start. -/
theorem prepBasicWrite_inlock_lengths (fuel : Nat) :
    ∀ (i : WriteIntent) (st : JournalState), i.length < fuel →
      (∀ c ∈ prepBasicWrite_calls fuel i st, resolvesWithRoom c.2.privateViews c.1 = true) →
      ∃ new : List BufItem,
        (prepBasicWrite_inlock fuel i st).1 = Outcome.ok ∧
        (prepBasicWrite_inlock fuel i st).2.bb = st.bb ++ new ∧
        (entryLens new).sum = i.length ∧
        (payloads new).map Prod.snd = entryLens new ∧
        contiguousFrom i.start (payloads new) := by
  induction fuel with
  | zero => intro i st h; omega
  | succ n ih =>
    intro i st hf hres
    have h0 := hres (i, st) (by rw [prepBasicWrite_calls_succ]; exact List.mem_cons_self _ _)
    unfold resolvesWithRoom at h0
    cases hfind : st.privateViews.find_inlock i.start with
    | none => simp [hfind] at h0
    | some r =>
      obtain ⟨f, ofs⟩ := r
      simp only [hfind, Bool.and_eq_true, decide_eq_true_eq] at h0
      obtain ⟨hofs, hrem⟩ := h0
      have hb := body_resolved i st f ofs hfind hofs
      have hle := makeJEntry_len_le i (st.privateViews.mmf f) ofs
      by_cases hlen : (makeJEntry i (st.privateViews.mmf f) ofs).len = i.length
      · simp only [hlen, ne_eq, not_true_eq_false, if_false] at hb
        refine ⟨contextItems st.lastDbPath (st.privateViews.mmf f).relativePath ++
          [BufItem.entry (makeJEntry i (st.privateViews.mmf f) ofs),
            BufItem.buf i.start (makeJEntry i (st.privateViews.mmf f) ofs).len], ?_⟩
        rw [prepBasicWrite_inlock_succ, hb]
        simp only [afterEntry_bb, List.append_assoc, entryLens_append, payloads_append,
          entryLens_contextItems, payloads_contextItems, List.nil_append, true_and]
        simp [entryLens, payloads, contiguousFrom, hlen]
      · simp only [ne_eq, hlen, not_false_eq_true, if_true] at hb
        have hpos : 0 < (makeJEntry i (st.privateViews.mmf f) ofs).len := by
          simp only [makeJEntry] at hlen ⊢
          omega
        have hcalls := prepBasicWrite_calls_succ n i st
        rw [hb] at hcalls
        obtain ⟨new, h1, h2, h3, h4, h5⟩ := ih _ (afterEntry st f _ i.start)
          (show (WriteIntent.mk (i.start + (makeJEntry i (st.privateViews.mmf f) ofs).len)
            (i.length - (makeJEntry i (st.privateViews.mmf f) ofs).len)).length < n by
            simp only; omega)
          (fun c hc => hres c (by rw [hcalls]; exact List.mem_cons_of_mem _ hc))
        refine ⟨contextItems st.lastDbPath (st.privateViews.mmf f).relativePath ++
          [BufItem.entry (makeJEntry i (st.privateViews.mmf f) ofs),
            BufItem.buf i.start (makeJEntry i (st.privateViews.mmf f) ofs).len] ++ new, ?_⟩
        rw [prepBasicWrite_inlock_succ, hb]
        simp only [h1, h2, afterEntry_bb, List.append_assoc, entryLens_append, payloads_append,
          entryLens_contextItems, payloads_contextItems, List.nil_append, true_and]
        simp only [entryLens, payloads, List.cons_append, List.nil_append, List.sum_cons,
          List.map_cons, contiguousFrom, h3, h4, true_and, and_true]
        refine ⟨by omega, h5⟩

theorem sameFiles_refl (a : PrivateViews) : a.sameFiles a := ⟨rfl, fun _ => ⟨rfl, rfl, rfl⟩⟩

theorem sameFiles_trans {a b c : PrivateViews} (h1 : a.sameFiles b) (h2 : b.sameFiles c) :
    a.sameFiles c :=
  ⟨h1.1.trans h2.1, fun f =>
    ⟨(h1.2 f).1.trans (h2.2 f).1, (h1.2 f).2.1.trans (h2.2 f).2.1,
      (h1.2 f).2.2.trans (h2.2 f).2.2⟩⟩

theorem sameFiles_tag (st : JournalState) (f : Nat) :
    st.privateViews.sameFiles (st.tagWillNeedRemap f).privateViews :=
  ⟨(tagWillNeedRemap_find st f).symm, fun g =>
    ⟨(tagWillNeedRemap_mmf st f g).1.symm, (tagWillNeedRemap_mmf st f g).2.1.symm,
      (tagWillNeedRemap_mmf st f g).2.2.symm⟩⟩

theorem resolvedEntry_congr {a b : PrivateViews} (h : a.sameFiles b) (i : WriteIntent) :
    resolvedEntry a i = resolvedEntry b i := by
  unfold resolvedEntry
  rw [h.1]
  cases b.find_inlock i.start with
  | none => rfl
  | some r =>
    obtain ⟨f, ofs⟩ := r
    simp only
    rw [(h.2 f).2.2, makeJEntry_congr i _ _ ofs (h.2 f).1 (h.2 f).2.1 (h.2 f).2.2]

theorem filterMap_resolvedEntry_congr {a b : PrivateViews} (h : a.sameFiles b)
    (l : List WriteIntent) :
    l.filterMap (resolvedEntry a) = l.filterMap (resolvedEntry b) := by
  have : resolvedEntry a = resolvedEntry b := funext (resolvedEntry_congr h)
  rw [this]

theorem layoutByCursor_append (c : RelativePath) (xs ys : List (RelativePath × JEntry × Nat)) :
    layoutByCursor c (xs ++ ys) = layoutByCursor c xs ++ layoutByCursor (cursorAfter c xs) ys := by
  induction xs generalizing c with
  | nil => rfl
  | cons x xs ih =>
    obtain ⟨p, e, src⟩ := x
    simp [layoutByCursor, cursorAfter, ih]

theorem cursorAfter_append (c : RelativePath) (xs ys : List (RelativePath × JEntry × Nat)) :
    cursorAfter c (xs ++ ys) = cursorAfter (cursorAfter c xs) ys := by
  induction xs generalizing c with
  | nil => rfl
  | cons x xs ih =>
    obtain ⟨p, e, src⟩ := x
    simp [cursorAfter, ih]

/-- The buffer after the calls made for one range: the Entries of the calls that got that
far, laid out by the cursor rule. The cursor moves accordingly and the table keeps its
files. -/
theorem prepBasicWrite_inlock_layout (fuel : Nat) :
    ∀ (i : WriteIntent) (st : JournalState),
      (prepBasicWrite_inlock fuel i st).2.bb =
        st.bb ++ layoutByCursor st.lastDbPath
          (((prepBasicWrite_calls fuel i st).map Prod.fst).filterMap
            (resolvedEntry st.privateViews)) ∧
      (prepBasicWrite_inlock fuel i st).2.lastDbPath =
        cursorAfter st.lastDbPath
          (((prepBasicWrite_calls fuel i st).map Prod.fst).filterMap
            (resolvedEntry st.privateViews)) ∧
      st.privateViews.sameFiles (prepBasicWrite_inlock fuel i st).2.privateViews := by
  induction fuel with
  | zero =>
    intro i st
    simp [prepBasicWrite_inlock, prepBasicWrite_calls, layoutByCursor, cursorAfter,
      sameFiles_refl]
  | succ n ih =>
    intro i st
    rw [prepBasicWrite_inlock_succ, prepBasicWrite_calls_succ]
    cases hfind : st.privateViews.find_inlock i.start with
    | none =>
      rw [body_unresolved i st hfind]
      simp [resolvedEntry, hfind, layoutByCursor, cursorAfter, sameFiles_refl]
    | some r =>
      obtain ⟨f, ofs⟩ := r
      by_cases hofs : ofs ≤ 0x80000000
      · rw [body_resolved i st f ofs hfind hofs]
        have hre : resolvedEntry st.privateViews i =
            some ((st.privateViews.mmf f).relativePath,
              makeJEntry i (st.privateViews.mmf f) ofs, i.start) := by
          simp [resolvedEntry, hfind, hofs]
        have hsame : st.privateViews.sameFiles
            (afterEntry st f (makeJEntry i (st.privateViews.mmf f) ofs) i.start).privateViews := by
          rw [afterEntry_privateViews]
          exact sameFiles_tag st f
        by_cases hlen : (makeJEntry i (st.privateViews.mmf f) ofs).len = i.length
        · simp only [hlen, ne_eq, not_true_eq_false, if_false, List.map_cons, List.map_nil,
            List.filterMap_cons, hre, List.filterMap_nil, layoutByCursor, cursorAfter,
            afterEntry_bb, afterEntry_lastDbPath, List.append_nil, List.append_assoc, true_and]
          exact hsame
        · simp only [ne_eq, hlen, not_false_eq_true, if_true, List.map_cons,
            List.filterMap_cons, hre, layoutByCursor, cursorAfter]
          obtain ⟨h1, h2, h3⟩ := ih
            ⟨i.start + (makeJEntry i (st.privateViews.mmf f) ofs).len,
              i.length - (makeJEntry i (st.privateViews.mmf f) ofs).len⟩
            (afterEntry st f (makeJEntry i (st.privateViews.mmf f) ofs) i.start)
          rw [h1, h2, ← filterMap_resolvedEntry_congr hsame, afterEntry_bb,
            afterEntry_lastDbPath]
          exact ⟨by simp only [List.append_assoc], rfl, sameFiles_trans hsame h3⟩
      · rw [body_bad_ofs i st f ofs hfind hofs]
        simp [resolvedEntry, hfind, hofs, layoutByCursor, cursorAfter, tagWillNeedRemap_bb,
          tagWillNeedRemap_lastDbPath, sameFiles_tag]

/-- The same for the ranges of a list encoded in turn. -/
theorem encodeRanges_layout (fuel : Nat) (rs : List WriteIntent) :
    ∀ st : JournalState,
      (encodeRanges (prepBasicWrite_inlock fuel) rs st).2.bb =
        st.bb ++ layoutByCursor st.lastDbPath
          (((encodeRanges_calls fuel rs st).map Prod.fst).filterMap
            (resolvedEntry st.privateViews)) ∧
      (encodeRanges (prepBasicWrite_inlock fuel) rs st).2.lastDbPath =
        cursorAfter st.lastDbPath
          (((encodeRanges_calls fuel rs st).map Prod.fst).filterMap
            (resolvedEntry st.privateViews)) ∧
      st.privateViews.sameFiles
        (encodeRanges (prepBasicWrite_inlock fuel) rs st).2.privateViews := by
  induction rs with
  | nil =>
    intro st
    simp [encodeRanges, encodeRanges_calls, layoutByCursor, cursorAfter, sameFiles_refl]
  | cons r rs ih =>
    intro st
    obtain ⟨h1, h2, h3⟩ := prepBasicWrite_inlock_layout fuel r st
    simp only [encodeRanges, encodeRanges_calls]
    rcases hrun : prepBasicWrite_inlock fuel r st with ⟨o, st1⟩
    rw [hrun] at h1 h2 h3
    simp only at h1 h2 h3
    cases o with
    | ok =>
      obtain ⟨k1, k2, k3⟩ := ih st1
      simp only [List.map_append, List.filterMap_append, layoutByCursor_append,
        cursorAfter_append]
      rw [k1, k2, h1, h2, filterMap_resolvedEntry_congr h3
        ((encodeRanges_calls fuel rs st1).map Prod.fst)]
      exact ⟨by simp only [List.append_assoc], rfl, sameFiles_trans h3 k3⟩
    | journalingFailure => simp [h1, h2, h3]
    | verifyFailed c => simp [h1, h2, h3]
    | outOfFuel => simp [h1, h2, h3]

/-- The buffer only grows during the calls made for a range, starting with what the body
of the first call writes. -/
theorem prepBasicWrite_inlock_extends_body (fuel : Nat) (i : WriteIntent) (st : JournalState) :
    ∃ rest, (prepBasicWrite_inlock (fuel + 1) i st).2.bb =
      (prepBasicWrite_body i st).state.bb ++ rest := by
  rw [prepBasicWrite_inlock_succ]
  cases hb : prepBasicWrite_body i st with
  | failed o st1 => exact ⟨[], by simp [BodyResult.state]⟩
  | done st1 => exact ⟨[], by simp [BodyResult.state]⟩
  | split next st1 => exact ⟨_, (prepBasicWrite_inlock_layout fuel next st1).1⟩

theorem toUnsigned_of_lt (n : Nat) (h : n < 4294967296) : toUnsigned (n : Int) = n := by
  unfold toUnsigned
  omega

/-- What `resolvedEntry` holds: the Entry of a range found at an offset that passes the
check, with the fields that lines 97 to 100 give it. -/
theorem resolvedEntry_fields (pv : PrivateViews) (r : WriteIntent)
    (x : RelativePath × JEntry × Nat) (hx : resolvedEntry pv r = some x) :
    ∃ f ofs, pv.find_inlock r.start = some (f, ofs) ∧ ofs ≤ 0x80000000 ∧
      x.1 = (pv.mmf f).relativePath ∧ x.2.2 = r.start ∧
      x.2.1.len = min r.length (toUnsigned (((pv.mmf f).length : Int) - (ofs : Int))) ∧
      x.2.1.ofs = ofs ∧ x.2.1.fileNo = (pv.mmf f).fileSuffixNo ∧
      x.2.1.localDbContextBit = decide ((pv.mmf f).relativePath = localPath) := by
  unfold resolvedEntry at hx
  cases hfind : pv.find_inlock r.start with
  | none => simp [hfind] at hx
  | some y =>
    obtain ⟨f, ofs⟩ := y
    simp only [hfind] at hx
    split at hx
    · rename_i hofs
      simp only [Option.some.injEq] at hx
      subst hx
      exact ⟨f, ofs, rfl, hofs, rfl, rfl, rfl, toUnsigned_of_lt ofs (by omega), rfl, rfl⟩
    · cases hx

theorem exampleViews_filesBounded (pathA pathB pathC : RelativePath) :
    (exampleViews pathA pathB pathC).filesBounded := by
  intro a f ofs h
  simp only [exampleViews] at h ⊢
  split at h
  · simp only [Option.some.injEq, Prod.mk.injEq] at h
    obtain ⟨rfl, rfl⟩ := h
    simp only [if_true]
    omega
  · split at h
    · simp only [Option.some.injEq, Prod.mk.injEq] at h
      obtain ⟨rfl, rfl⟩ := h
      simp only [Nat.one_ne_zero, if_false, if_true]
      omega
    · split at h
      · simp only [Option.some.injEq, Prod.mk.injEq] at h
        obtain ⟨rfl, rfl⟩ := h
        simp only [OfNat.ofNat_ne_zero, OfNat.ofNat_ne_one, if_false]
        omega
      · cases h

/-- C2, as the code has it: when every call made for a range finds its address at an
offset of at most `0x80000000` with at least one byte left in the file (computed in 32
bits), the encoding succeeds, the lengths of the Entries written add up to the length of
the range, each Entry has the length of its payload, and the payloads follow one another
from the start of the range. With 30 bytes left in the file and a range of 50 bytes
whose rest fits its file, the two Entries have the lengths 30 and 20. -/
theorem prepBasicWrite_inlock_split_sum (fuel : Nat) (i : WriteIntent) (st : JournalState)
    (hfuel : i.length < fuel)
    (hres : ∀ c ∈ prepBasicWrite_calls fuel i st,
      resolvesWithRoom c.2.privateViews c.1 = true) :
    (∃ new : List BufItem,
      (prepBasicWrite_inlock fuel i st).1 = Outcome.ok ∧
      (prepBasicWrite_inlock fuel i st).2.bb = st.bb ++ new ∧
      (entryLens new).sum = i.length ∧
      (payloads new).map Prod.snd = entryLens new ∧
      contiguousFrom i.start (payloads new)) ∧
    (∀ f ofs g ofs2 : Nat, i.length = 50 →
      st.privateViews.find_inlock i.start = some (f, ofs) →
      toUnsigned (((st.privateViews.mmf f).length : Int) - (ofs : Int)) = 30 →
      st.privateViews.find_inlock (i.start + 30) = some (g, ofs2) →
      20 ≤ toUnsigned (((st.privateViews.mmf g).length : Int) - (ofs2 : Int)) →
      ∃ new : List BufItem,
        (prepBasicWrite_inlock fuel i st).2.bb = st.bb ++ new ∧
        entryLens new = [30, 20] ∧ payloads new = [(i.start, 30), (i.start + 30, 20)]) := by
  refine ⟨prepBasicWrite_inlock_lengths fuel i st hfuel hres, ?_⟩
  intro f ofs g ofs2 h50 hfind hrem hfind2 hrem2
  obtain ⟨n, rfl⟩ : ∃ n, fuel = n + 2 := ⟨fuel - 2, by omega⟩
  have h0 := hres (i, st) (by rw [prepBasicWrite_calls_succ]; exact List.mem_cons_self _ _)
  simp only [resolvesWithRoom, hfind, Bool.and_eq_true, decide_eq_true_eq] at h0
  have he1 : (makeJEntry i (st.privateViews.mmf f) ofs).len = 30 := by
    simp only [makeJEntry, hrem, h50]; rfl
  have hb := body_resolved i st f ofs hfind h0.1
  rw [he1, h50] at hb
  simp only [ne_eq, Nat.reduceEqDiff, not_false_eq_true, if_true, Nat.reduceSub] at hb
  have hsame : st.privateViews.sameFiles
      (afterEntry st f (makeJEntry i (st.privateViews.mmf f) ofs) i.start).privateViews := by
    rw [afterEntry_privateViews]; exact sameFiles_tag st f
  have hfind3 : (afterEntry st f (makeJEntry i (st.privateViews.mmf f) ofs)
      i.start).privateViews.find_inlock (i.start + 30) = some (g, ofs2) := by
    rw [← hsame.1]; exact hfind2
  have hcalls : prepBasicWrite_calls (n + 2) i st =
      (i, st) :: prepBasicWrite_calls (n + 1) ⟨i.start + 30, 20⟩
        (afterEntry st f (makeJEntry i (st.privateViews.mmf f) ofs) i.start) := by
    rw [prepBasicWrite_calls_succ, hb]
  have h1 := hres (⟨i.start + 30, 20⟩, afterEntry st f (makeJEntry i (st.privateViews.mmf f) ofs)
    i.start) (by
      rw [hcalls, prepBasicWrite_calls_succ]
      exact List.mem_cons_of_mem _ (List.mem_cons_self _ _))
  simp only [resolvesWithRoom, hfind3, Bool.and_eq_true, decide_eq_true_eq] at h1
  have hl := (hsame.2 g).1
  have he2 : (makeJEntry ⟨i.start + 30, 20⟩
      ((afterEntry st f (makeJEntry i (st.privateViews.mmf f) ofs) i.start).privateViews.mmf g)
      ofs2).len = 20 := by
    rw [makeJEntry_len, ← hl]
    simp only
    omega
  have hb2 := body_resolved ⟨i.start + 30, 20⟩ _ g ofs2 hfind3 h1.1
  rw [he2] at hb2
  simp only [ne_eq, not_true_eq_false, if_false] at hb2
  refine ⟨contextItems st.lastDbPath (st.privateViews.mmf f).relativePath ++
    [BufItem.entry (makeJEntry i (st.privateViews.mmf f) ofs), BufItem.buf i.start 30] ++
    (contextItems (nextCursor st.lastDbPath (st.privateViews.mmf f).relativePath)
      ((afterEntry st f (makeJEntry i (st.privateViews.mmf f) ofs)
        i.start).privateViews.mmf g).relativePath ++
    [BufItem.entry (makeJEntry ⟨i.start + 30, 20⟩
      ((afterEntry st f (makeJEntry i (st.privateViews.mmf f) ofs) i.start).privateViews.mmf g)
      ofs2), BufItem.buf (i.start + 30) 20]), ?_, ?_, ?_⟩
  · rw [prepBasicWrite_inlock_succ, hb]
    simp only
    rw [prepBasicWrite_inlock_succ, hb2]
    simp only [afterEntry_bb, afterEntry_lastDbPath, List.append_assoc, he1, he2]
  · simp only [entryLens_append, entryLens_contextItems, entryLens, he1, he2,
      List.nil_append, List.cons_append]
  · simp only [payloads_append, payloads_contextItems, payloads, List.nil_append,
      List.cons_append]

/-- C2, witness: the range `(70,50)` over `exampleViews`, with 30 bytes left in the first
file. -/
theorem prepBasicWrite_inlock_split_sum_witness :
    ∃ new : List BufItem,
      (prepBasicWrite_inlock 51 ⟨70, 50⟩ (exampleState ⟨"A"⟩ ⟨"B"⟩ localPath)).2.bb =
        (exampleState ⟨"A"⟩ ⟨"B"⟩ localPath).bb ++ new ∧
      entryLens new = [30, 20] ∧ payloads new = [(70, 30), (70 + 30, 20)] :=
  (prepBasicWrite_inlock_split_sum 51 ⟨70, 50⟩ (exampleState ⟨"A"⟩ ⟨"B"⟩ localPath)
    (by decide) (by decide)).2 0 70 1 0 rfl (by decide) (by decide) (by decide) (by decide)

/-- C2, counterexample: in a file of `0x90000000` bytes the range `(0x80000001, 50)` is
found, with `0x0fffffff` bytes left in the file, yet the check of line 98 fails and no
Entry is written, so the lengths written add up to 0, not to 50. -/
theorem prepBasicWrite_inlock_large_offset :
    largeFileState.privateViews.find_inlock 0x80000001 = some (0, 0x80000001) ∧
    (largeFileState.privateViews.mmf 0).length - 0x80000001 = 0x0fffffff ∧
    ∀ fuel : Nat,
      (prepBasicWrite_inlock (fuel + 1) ⟨0x80000001, 50⟩ largeFileState).1 =
        Outcome.verifyFailed Check.ofsInRange ∧
      entryLens (prepBasicWrite_inlock (fuel + 1) ⟨0x80000001, 50⟩ largeFileState).2.bb = [] := by
  refine ⟨by decide, by decide, fun fuel => ?_⟩
  rw [prepBasicWrite_inlock_succ,
    body_bad_ofs ⟨0x80000001, 50⟩ largeFileState 0 0x80000001 (by decide) (by decide)]
  exact ⟨rfl, by rw [tagWillNeedRemap_bb]; rfl⟩

/-! ## The local path (C7) -/

/-- C7: for a range found in a mapped file of the local path, whatever the cursor, the
body writes the Entry with the local-db flag set and its payload and nothing else (and
nothing at all when the offset fails the check), and leaves the cursor as it is; for a
range found in a file of another path the Entry does not have the flag set. What the
body writes is what the call writes first. -/
theorem prepBasicWrite_inlock_local_flag (i : WriteIntent) (st : JournalState) (f ofs : Nat)
    (hfind : st.privateViews.find_inlock i.start = some (f, ofs)) :
    ((st.privateViews.mmf f).relativePath = localPath →
      (prepBasicWrite_body i st).state.bb =
        st.bb ++ (if ofs ≤ 0x80000000 then
          [BufItem.entry (makeJEntry i (st.privateViews.mmf f) ofs),
           BufItem.buf i.start (makeJEntry i (st.privateViews.mmf f) ofs).len] else []) ∧
      (makeJEntry i (st.privateViews.mmf f) ofs).localDbContextBit = true ∧
      (prepBasicWrite_body i st).state.lastDbPath = st.lastDbPath) ∧
    ((st.privateViews.mmf f).relativePath ≠ localPath →
      (prepBasicWrite_body i st).state.bb =
        st.bb ++ (if ofs ≤ 0x80000000 then
          contextItems st.lastDbPath (st.privateViews.mmf f).relativePath ++
          [BufItem.entry (makeJEntry i (st.privateViews.mmf f) ofs),
           BufItem.buf i.start (makeJEntry i (st.privateViews.mmf f) ofs).len] else []) ∧
      (makeJEntry i (st.privateViews.mmf f) ofs).localDbContextBit = false) ∧
    (∀ fuel : Nat, ∃ rest, (prepBasicWrite_inlock (fuel + 1) i st).2.bb =
      (prepBasicWrite_body i st).state.bb ++ rest) := by
  have hstate : (prepBasicWrite_body i st).state.bb =
      st.bb ++ (if ofs ≤ 0x80000000 then
        contextItems st.lastDbPath (st.privateViews.mmf f).relativePath ++
        [BufItem.entry (makeJEntry i (st.privateViews.mmf f) ofs),
         BufItem.buf i.start (makeJEntry i (st.privateViews.mmf f) ofs).len] else []) ∧
      (prepBasicWrite_body i st).state.lastDbPath =
        if ofs ≤ 0x80000000 then nextCursor st.lastDbPath (st.privateViews.mmf f).relativePath
        else st.lastDbPath := by
    by_cases hofs : ofs ≤ 0x80000000
    · rw [body_resolved i st f ofs hfind hofs]
      split <;>
        simp [BodyResult.state, afterEntry_bb, afterEntry_lastDbPath, hofs]
    · rw [body_bad_ofs i st f ofs hfind hofs]
      simp [BodyResult.state, tagWillNeedRemap_bb, tagWillNeedRemap_lastDbPath, hofs]
  refine ⟨fun hloc => ?_, fun hloc => ?_, fun fuel => prepBasicWrite_inlock_extends_body fuel i st⟩
  · refine ⟨?_, by simp [makeJEntry, hloc], ?_⟩
    · rw [hstate.1, hloc]
      simp [contextItems]
    · rw [hstate.2, hloc]
      simp [nextCursor]
  · exact ⟨hstate.1, by simp [makeJEntry, hloc]⟩

/-- C7, witness: the range `(1000,10)` of the local file, with the cursor at `A`. -/
theorem prepBasicWrite_inlock_local_flag_witness :
    (prepBasicWrite_body ⟨1000, 10⟩
      { exampleState ⟨"A"⟩ ⟨"B"⟩ localPath with lastDbPath := ⟨"A"⟩ }).state.bb =
      [] ++ (if 0 ≤ 0x80000000 then
        [BufItem.entry (makeJEntry ⟨1000, 10⟩ ((exampleViews ⟨"A"⟩ ⟨"B"⟩ localPath).mmf 2) 0),
         BufItem.buf 1000 (makeJEntry ⟨1000, 10⟩ ((exampleViews ⟨"A"⟩ ⟨"B"⟩ localPath).mmf 2) 0).len]
        else []) ∧
    (makeJEntry ⟨1000, 10⟩ ((exampleViews ⟨"A"⟩ ⟨"B"⟩ localPath).mmf 2) 0).localDbContextBit = true :=
  ⟨((prepBasicWrite_inlock_local_flag ⟨1000, 10⟩
      { exampleState ⟨"A"⟩ ⟨"B"⟩ localPath with lastDbPath := ⟨"A"⟩ } 2 0 rfl).1 rfl).1,
   ((prepBasicWrite_inlock_local_flag ⟨1000, 10⟩
      { exampleState ⟨"A"⟩ ⟨"B"⟩ localPath with lastDbPath := ⟨"A"⟩ } 2 0 rfl).1 rfl).2.1⟩

/-! ## Unresolved addresses (C9) -/

/-- C9: when a call made for a range, the first one or one made for a rest of the range,
is on an address that the mapping table does not hold, the encoding of the range ends
in `journalingFailure` in the very state in which that call started: nothing is
appended for the address. -/
theorem prepBasicWrite_inlock_unresolved (fuel : Nat) (i : WriteIntent) (st : JournalState)
    (c : WriteIntent × JournalState) (hc : c ∈ prepBasicWrite_calls fuel i st)
    (hnone : c.2.privateViews.find_inlock c.1.start = none) :
    prepBasicWrite_inlock fuel i st = (Outcome.journalingFailure, c.2) := by
  induction fuel generalizing i st with
  | zero => simp [prepBasicWrite_calls] at hc
  | succ n ih =>
    rw [prepBasicWrite_calls_succ] at hc
    rw [prepBasicWrite_inlock_succ]
    rcases List.mem_cons.1 hc with rfl | hc
    · rw [body_unresolved i st hnone]
    · cases hb : prepBasicWrite_body i st with
      | failed o st1 => rw [hb] at hc; cases hc
      | done st1 => rw [hb] at hc; cases hc
      | split next st1 =>
        rw [hb] at hc
        exact ih next st1 hc

/-- C9, witness: the range `(170,50)` over `exampleViews` leaves the second file after 30
bytes, and the address 200 is not mapped. -/
theorem prepBasicWrite_inlock_unresolved_witness :
    (exampleViews ⟨"A"⟩ ⟨"B"⟩ localPath).find_inlock 200 = none ∧
    (prepBasicWrite_inlock 2 ⟨170, 50⟩ (exampleState ⟨"A"⟩ ⟨"B"⟩ localPath)).1 =
      Outcome.journalingFailure ∧
    (prepBasicWrite_inlock 2 ⟨170, 50⟩ (exampleState ⟨"A"⟩ ⟨"B"⟩ localPath)).2.bb =
      [BufItem.dbContext, BufItem.str "B", BufItem.entry ⟨30, 70, 8, false⟩,
        BufItem.buf 170 30] := by
  have h := prepBasicWrite_inlock_unresolved 2 ⟨170, 50⟩ (exampleState ⟨"A"⟩ ⟨"B"⟩ localPath)
    (⟨200, 20⟩, afterEntry (exampleState ⟨"A"⟩ ⟨"B"⟩ localPath) 1 ⟨30, 70, 8, false⟩ 170)
    (List.mem_cons_of_mem _ (List.mem_cons_self _ _)) rfl
  rw [h]
  exact ⟨by decide, rfl, by decide⟩

/-! ## The empty set of intents (C10) -/

/-- C10: with no write intent, whatever the other collaborators hold, `PREPLOGBUFFER`
ends in a failed check on the caller's obligations; it ends well only when the set of
intents is not empty. -/
theorem PREPLOGBUFFER_empty_intents (env : Env) (fuel : Nat) (h : JSectHeader)
    (st : JournalState) :
    (PREPLOGBUFFER { env with intentsSorted := [] } fuel h st).1.isPreconditionViolation = true ∧
    ((PREPLOGBUFFER env fuel h st).1 = Outcome.ok → env.intentsSorted ≠ []) := by
  have key : ∀ e : Env, e.intentsSorted = [] →
      (PREPLOGBUFFER e fuel h st).1.isPreconditionViolation = true := by
    intro e he
    simp only [PREPLOGBUFFER, _PREPLOGBUFFER, prepBasicWrites, resetLogBuffer, he,
      List.isEmpty_nil, if_true]
    cases e.lockedForCommitting <;> cases e.dur <;> cases e.nothingSpooled <;> rfl
  refine ⟨key _ rfl, fun hok hemp => ?_⟩
  have := key env hemp
  rw [hok] at this
  exact absurd this (by decide)

/-- C10, witness: a build that ends well, with one intent. -/
theorem PREPLOGBUFFER_empty_intents_witness :
    (PREPLOGBUFFER ⟨true, true, true, 5, 6, [], [⟨0, 10⟩]⟩ 1 ⟨0, 0, 0⟩
      (exampleState ⟨"A"⟩ ⟨"B"⟩ localPath)).1 = Outcome.ok ∧
    ([⟨0, 10⟩] : List WriteIntent) ≠ [] :=
  ⟨by decide,
    (PREPLOGBUFFER_empty_intents ⟨true, true, true, 5, 6, [], [⟨0, 10⟩]⟩ 1 ⟨0, 0, 0⟩
      (exampleState ⟨"A"⟩ ⟨"B"⟩ localPath)).2 (by decide)⟩

/-! ## PathContext records (C5, C6) -/

/-- C5, as the code has it: the buffer that `prepBasicWrites` leaves is the buffer it
found followed by the Entries of its calls of `prepBasicWrite_inlock`, in order, each
with its payload, where a PathContext record goes immediately before an Entry if and
only if the path of the Entry is not `local` and differs from the cursor, the cursor
being the path of the nearest Entry before it whose path is not `local`, and the empty
default path when there is none. -/
theorem prepBasicWrites_context_by_cursor (env : Env) (fuel : Nat) (st : JournalState)
    (hne : env.intentsSorted ≠ []) (hsp : env.nothingSpooled = true) :
    (prepBasicWrites env fuel st).2.bb =
      st.bb ++ layoutByCursor default
        (((encodeRanges_calls fuel (handedRanges env.intentsSorted)
            { st with lastDbPath := default }).map Prod.fst).filterMap
          (resolvedEntry st.privateViews)) := by
  rw [prepBasicWrites_eq_encodeRanges env fuel st hne hsp]
  exact (encodeRanges_layout fuel _ { st with lastDbPath := default }).1

/-- C5, witness: two ranges of the path `A`, then one of the local database; only the first
Entry has a PathContext record before it. -/
theorem prepBasicWrites_context_by_cursor_witness :
    (prepBasicWrites ⟨true, true, true, 0, 0, [], [⟨0, 10⟩, ⟨20, 10⟩, ⟨1000, 10⟩]⟩ 1
      (exampleState ⟨"A"⟩ ⟨"B"⟩ localPath)).2.bb =
      [BufItem.dbContext, BufItem.str "A", BufItem.entry ⟨10, 0, 7, false⟩, BufItem.buf 0 10,
        BufItem.entry ⟨10, 20, 7, false⟩, BufItem.buf 20 10,
        BufItem.entry ⟨10, 0, 9, true⟩, BufItem.buf 1000 10] :=
  (prepBasicWrites_context_by_cursor
    ⟨true, true, true, 0, 0, [], [⟨0, 10⟩, ⟨20, 10⟩, ⟨1000, 10⟩]⟩ 1
    (exampleState ⟨"A"⟩ ⟨"B"⟩ localPath) (by decide) rfl).trans (by decide)

/-- C5, counterexample: for a range of the path `A` followed by a range of the local
database, the second Entry has a path that differs from the path of the Entry before it,
yet no PathContext record goes before it. -/
theorem prepBasicWrites_no_context_before_local :
    ([⟨0, 10⟩, ⟨1000, 10⟩].filterMap
      (resolvedEntry (exampleViews ⟨"A"⟩ ⟨"B"⟩ localPath))).map Prod.fst =
      [⟨"A"⟩, localPath] ∧
    (prepBasicWrites ⟨true, true, true, 0, 0, [], [⟨0, 10⟩, ⟨1000, 10⟩]⟩ 1
      (exampleState ⟨"A"⟩ ⟨"B"⟩ localPath)).2.bb =
      [BufItem.dbContext, BufItem.str "A", BufItem.entry ⟨10, 0, 7, false⟩, BufItem.buf 0 10,
        BufItem.entry ⟨10, 0, 9, true⟩, BufItem.buf 1000 10] ∧
    layoutByPrevEntry none false
      ([⟨0, 10⟩, ⟨1000, 10⟩].filterMap
        (resolvedEntry (exampleViews ⟨"A"⟩ ⟨"B"⟩ localPath))) =
      [BufItem.dbContext, BufItem.str "A", BufItem.entry ⟨10, 0, 7, false⟩, BufItem.buf 0 10,
        BufItem.dbContext, BufItem.str "local", BufItem.entry ⟨10, 0, 9, true⟩,
        BufItem.buf 1000 10] := by
  refine ⟨by decide, by decide, by decide⟩

/-- A call of `prepBasicWrite_inlock` that ends well has written Entries that add up to
the range, each with its payload, the payloads following one another from the start of
the range. -/
theorem prepBasicWrite_inlock_ok_lengths (fuel : Nat) :
    ∀ (i : WriteIntent) (st : JournalState),
      (prepBasicWrite_inlock fuel i st).1 = Outcome.ok →
      ∃ new : List BufItem,
        (prepBasicWrite_inlock fuel i st).2.bb = st.bb ++ new ∧
        (entryLens new).sum = i.length ∧
        (payloads new).map Prod.snd = entryLens new ∧
        contiguousFrom i.start (payloads new) := by
  induction fuel with
  | zero => intro i st h; simp [prepBasicWrite_inlock] at h
  | succ n ih =>
    intro i st hok
    rw [prepBasicWrite_inlock_succ] at hok ⊢
    cases hfind : st.privateViews.find_inlock i.start with
    | none => rw [body_unresolved i st hfind] at hok; simp at hok
    | some r =>
      obtain ⟨f, ofs⟩ := r
      by_cases hofs : ofs ≤ 0x80000000
      · have hb := body_resolved i st f ofs hfind hofs
        have hle := makeJEntry_len_le i (st.privateViews.mmf f) ofs
        by_cases hlen : (makeJEntry i (st.privateViews.mmf f) ofs).len = i.length
        · simp only [hlen, ne_eq, not_true_eq_false, if_false] at hb
          rw [hb]
          refine ⟨contextItems st.lastDbPath (st.privateViews.mmf f).relativePath ++
            [BufItem.entry (makeJEntry i (st.privateViews.mmf f) ofs),
              BufItem.buf i.start (makeJEntry i (st.privateViews.mmf f) ofs).len], ?_⟩
          simp only [afterEntry_bb, List.append_assoc, entryLens_append, payloads_append,
            entryLens_contextItems, payloads_contextItems, List.nil_append, true_and]
          simp [entryLens, payloads, contiguousFrom, hlen]
        · simp only [ne_eq, hlen, not_false_eq_true, if_true] at hb
          rw [hb] at hok ⊢
          obtain ⟨new, h2, h3, h4, h5⟩ := ih _ _ hok
          refine ⟨contextItems st.lastDbPath (st.privateViews.mmf f).relativePath ++
            [BufItem.entry (makeJEntry i (st.privateViews.mmf f) ofs),
              BufItem.buf i.start (makeJEntry i (st.privateViews.mmf f) ofs).len] ++ new, ?_⟩
          simp only [h2, afterEntry_bb, List.append_assoc, entryLens_append, payloads_append,
            entryLens_contextItems, payloads_contextItems, List.nil_append, true_and]
          simp only [entryLens, payloads, List.cons_append, List.nil_append, List.sum_cons,
            List.map_cons, contiguousFrom, h3, h4, true_and, and_true]
          simp only at h3 h5
          refine ⟨by omega, h5⟩
      · rw [body_bad_ofs i st f ofs hfind hofs] at hok
        simp at hok

/-- Ranges encoded in turn with success leave one block of records for each range, in
the order of the ranges. -/
theorem encodeRanges_ok_blocks (fuel : Nat) (rs : List WriteIntent) :
    ∀ st : JournalState, (encodeRanges (prepBasicWrite_inlock fuel) rs st).1 = Outcome.ok →
      ∃ blocks : List (List BufItem),
        (encodeRanges (prepBasicWrite_inlock fuel) rs st).2.bb = st.bb ++ blocks.flatten ∧
        List.Forall₂ (fun r new => (entryLens new).sum = r.length ∧
          (payloads new).map Prod.snd = entryLens new ∧
          contiguousFrom r.start (payloads new)) rs blocks := by
  induction rs with
  | nil => intro st _; exact ⟨[], by simp [encodeRanges], List.Forall₂.nil⟩
  | cons r rs ih =>
    intro st hok
    simp only [encodeRanges] at hok ⊢
    rcases hrun : prepBasicWrite_inlock fuel r st with ⟨o, st1⟩
    rw [hrun] at hok
    cases o with
    | ok =>
      simp only at hok ⊢
      obtain ⟨new, h1, h2, h3, h4⟩ := prepBasicWrite_inlock_ok_lengths fuel r st
        (by rw [hrun])
      rw [hrun] at h1
      simp only at h1
      obtain ⟨blocks, k1, k2⟩ := ih st1 hok
      exact ⟨new :: blocks, by rw [k1, h1]; simp, List.Forall₂.cons ⟨h2, h3, h4⟩ k2⟩
    | journalingFailure => simp at hok
    | verifyFailed c => simp at hok
    | outOfFuel => simp at hok

/-- A build that ends well has passed every check, returns the header that
`resetLogBuffer` fills in, and leaves what `prepBasicWrites` makes of a buffer that
holds the auxiliary operations only. -/
theorem PREPLOGBUFFER_ok (env : Env) (fuel : Nat) (h : JSectHeader) (st : JournalState)
    (hok : (PREPLOGBUFFER env fuel h st).1 = Outcome.ok) :
    env.nothingSpooled = true ∧ env.intentsSorted ≠ [] ∧
    (PREPLOGBUFFER env fuel h st).2.1 =
      ⟨0xffffffff, env.lastDataFileFlushTime, env.curFileId⟩ ∧
    (PREPLOGBUFFER env fuel h st).2.2 =
      (prepBasicWrites env fuel { st with bb := env.ops.map BufItem.durOp }).2 ∧
    (prepBasicWrites env fuel { st with bb := env.ops.map BufItem.durOp }).1 = Outcome.ok := by
  have hl : env.lockedForCommitting = true := by
    cases hc : env.lockedForCommitting with
    | true => rfl
    | false => simp [PREPLOGBUFFER, hc] at hok
  have hd : env.dur = true := by
    cases hc : env.dur with
    | true => rfl
    | false => simp [PREPLOGBUFFER, _PREPLOGBUFFER, hl, hc] at hok
  have heq : PREPLOGBUFFER env fuel h st =
      ((prepBasicWrites env fuel { st with bb := env.ops.map BufItem.durOp }).1,
        ⟨0xffffffff, env.lastDataFileFlushTime, env.curFileId⟩,
        (prepBasicWrites env fuel { st with bb := env.ops.map BufItem.durOp }).2) := by
    simp [PREPLOGBUFFER, _PREPLOGBUFFER, resetLogBuffer, hl, hd]
  rw [heq] at hok ⊢
  simp only at hok
  have hs : env.nothingSpooled = true := by
    cases hc : env.nothingSpooled with
    | true => rfl
    | false => simp [prepBasicWrites, hc] at hok
  have hne : env.intentsSorted ≠ [] := by
    intro hc
    simp [prepBasicWrites, hs, hc] at hok
  exact ⟨hs, hne, rfl, rfl, hok⟩

/-- C14: the header that a successful `PREPLOGBUFFER` returns has the section length
`0xffffffff`, the last data file flush time as its sequence number and the id of the
current log file as its file id, whatever the write intents and the auxiliary
operations are. -/
theorem PREPLOGBUFFER_returns_placeholder_header (env : Env) (fuel : Nat) (h : JSectHeader) (st : JournalState)
    (hok : (PREPLOGBUFFER env fuel h st).1 = Outcome.ok) :
    (PREPLOGBUFFER env fuel h st).2.1.sectionLen = 0xffffffff ∧
    (PREPLOGBUFFER env fuel h st).2.1.seqNumber = env.lastDataFileFlushTime ∧
    (PREPLOGBUFFER env fuel h st).2.1.fileId = env.curFileId := by
  rw [(PREPLOGBUFFER_ok env fuel h st hok).2.2.1]
  exact ⟨rfl, rfl, rfl⟩

/-- C14, witness: a build with one auxiliary operation and one intent. -/
theorem PREPLOGBUFFER_returns_placeholder_header_witness :
    (PREPLOGBUFFER ⟨true, true, true, 5, 6, [⟨[1, 2]⟩], [⟨0, 10⟩]⟩ 1 ⟨0, 0, 0⟩
      (exampleState ⟨"A"⟩ ⟨"B"⟩ localPath)).2.1.sectionLen = 0xffffffff ∧
    (PREPLOGBUFFER ⟨true, true, true, 5, 6, [⟨[1, 2]⟩], [⟨0, 10⟩]⟩ 1 ⟨0, 0, 0⟩
      (exampleState ⟨"A"⟩ ⟨"B"⟩ localPath)).2.1.seqNumber = 5 ∧
    (PREPLOGBUFFER ⟨true, true, true, 5, 6, [⟨[1, 2]⟩], [⟨0, 10⟩]⟩ 1 ⟨0, 0, 0⟩
      (exampleState ⟨"A"⟩ ⟨"B"⟩ localPath)).2.1.fileId = 6 :=
  PREPLOGBUFFER_returns_placeholder_header ⟨true, true, true, 5, 6, [⟨[1, 2]⟩], [⟨0, 10⟩]⟩ 1 ⟨0, 0, 0⟩
    (exampleState ⟨"A"⟩ ⟨"B"⟩ localPath) (by decide)

/-- C18: after a successful `PREPLOGBUFFER` the buffer holds nothing of what it held
before: it is the auxiliary operations in the order of `ops()`, followed by one block of
records for each coalesced range, in the order of the ranges; the block of a range
holds Entries whose lengths add up to the range, each with its payload, the payloads
running from the start of the range on; PathContext records go by the cursor rule. -/
theorem PREPLOGBUFFER_buffer_order (env : Env) (fuel : Nat) (h : JSectHeader)
    (st : JournalState) (hok : (PREPLOGBUFFER env fuel h st).1 = Outcome.ok) :
    (∃ blocks : List (List BufItem),
      (PREPLOGBUFFER env fuel h st).2.2.bb = env.ops.map BufItem.durOp ++ blocks.flatten ∧
      List.Forall₂ (fun r new => (entryLens new).sum = r.length ∧
        (payloads new).map Prod.snd = entryLens new ∧
        contiguousFrom r.start (payloads new)) (handedRanges env.intentsSorted) blocks) ∧
    (PREPLOGBUFFER env fuel h st).2.2.bb = env.ops.map BufItem.durOp ++
      layoutByCursor default
        (((encodeRanges_calls fuel (handedRanges env.intentsSorted)
            { st with bb := env.ops.map BufItem.durOp, lastDbPath := default }).map
            Prod.fst).filterMap (resolvedEntry st.privateViews)) := by
  obtain ⟨hs, hne, _, h2, h3⟩ := PREPLOGBUFFER_ok env fuel h st hok
  rw [h2, prepBasicWrites_eq_encodeRanges env fuel _ hne hs]
  rw [prepBasicWrites_eq_encodeRanges env fuel _ hne hs] at h3
  refine ⟨?_, (encodeRanges_layout fuel (handedRanges env.intentsSorted)
    { st with bb := env.ops.map BufItem.durOp, lastDbPath := default }).1⟩
  exact encodeRanges_ok_blocks fuel _ _ h3

/-- C18, witness: two auxiliary operations and two ranges over a buffer that held an
Entry before the call. -/
theorem PREPLOGBUFFER_buffer_order_witness :
    (PREPLOGBUFFER ⟨true, true, true, 5, 6, [⟨[1, 2]⟩, ⟨[3]⟩], [⟨0, 10⟩, ⟨120, 4⟩]⟩ 1 ⟨0, 0, 0⟩
      { exampleState ⟨"A"⟩ ⟨"B"⟩ localPath with
        bb := [BufItem.entry ⟨1, 1, 1, false⟩] }).2.2.bb =
      [BufItem.durOp ⟨[1, 2]⟩, BufItem.durOp ⟨[3]⟩, BufItem.dbContext, BufItem.str "A",
        BufItem.entry ⟨10, 0, 7, false⟩, BufItem.buf 0 10, BufItem.dbContext, BufItem.str "B",
        BufItem.entry ⟨4, 20, 8, false⟩, BufItem.buf 120 4] :=
  (PREPLOGBUFFER_buffer_order
    ⟨true, true, true, 5, 6, [⟨[1, 2]⟩, ⟨[3]⟩], [⟨0, 10⟩, ⟨120, 4⟩]⟩ 1 ⟨0, 0, 0⟩
    { exampleState ⟨"A"⟩ ⟨"B"⟩ localPath with bb := [BufItem.entry ⟨1, 1, 1, false⟩] }
    (by decide)).2.trans (by decide)

/-! ## The fields of an Entry and the bound on the offset (C12, C13) -/

theorem entryRecords_append (xs ys : List BufItem) :
    entryRecords (xs ++ ys) = entryRecords xs ++ entryRecords ys := by
  induction xs with
  | nil => rfl
  | cons x xs ih => cases x <;> simp [entryRecords, ih]

theorem entryRecords_contextItems (c p : RelativePath) :
    entryRecords (contextItems c p) = [] := by
  unfold contextItems
  split <;> rfl

theorem entryRecords_layoutByCursor (es : List (RelativePath × JEntry × Nat)) :
    ∀ c : RelativePath, entryRecords (layoutByCursor c es) = es.map (fun x => x.2.1) := by
  induction es with
  | nil => intro c; rfl
  | cons a t ih =>
    intro c
    obtain ⟨p, e, src⟩ := a
    simp [layoutByCursor, entryRecords_append, entryRecords_contextItems, entryRecords, ih]

/-- C12: over a mapping table as the spec has it, with mapped files of at most
`0x80000000` bytes and offsets inside the files, the Entries written for a range are
those of the calls that found their address, in order, and each has the length
`min(length of the range of the call, bytes left in the file from the offset on)`, which
is at most the bytes left, the resolved offset as its offset and the file number of the
mapped file. -/
theorem prepBasicWrite_inlock_entry_fields (fuel : Nat) (i : WriteIntent) (st : JournalState)
    (hbound : st.privateViews.filesBounded) :
    (∃ new, (prepBasicWrite_inlock fuel i st).2.bb = st.bb ++ new ∧
      entryRecords new =
        (((prepBasicWrite_calls fuel i st).map Prod.fst).filterMap
          (resolvedEntry st.privateViews)).map (fun x => x.2.1)) ∧
    (∀ (r : WriteIntent) (x : RelativePath × JEntry × Nat),
      resolvedEntry st.privateViews r = some x →
      ∃ f ofs, st.privateViews.find_inlock r.start = some (f, ofs) ∧
        x.2.1.len = min r.length ((st.privateViews.mmf f).length - ofs) ∧
        x.2.1.len ≤ (st.privateViews.mmf f).length - ofs ∧
        x.2.1.ofs = ofs ∧ x.2.1.fileNo = (st.privateViews.mmf f).fileSuffixNo) := by
  refine ⟨⟨_, (prepBasicWrite_inlock_layout fuel i st).1, entryRecords_layoutByCursor _ _⟩, ?_⟩
  intro r x hx
  obtain ⟨f, ofs, h1, _, _, _, h5, h6, h7, _⟩ := resolvedEntry_fields _ r x hx
  obtain ⟨hb1, hb2⟩ := hbound r.start f ofs h1
  have hlen : x.2.1.len = min r.length ((st.privateViews.mmf f).length - ofs) := by
    rw [h5]
    unfold toUnsigned
    omega
  exact ⟨f, ofs, h1, hlen, by rw [hlen]; exact Nat.min_le_right _ _, h6, h7⟩

/-- C12, witness: the range `(70,50)` over `exampleViews` is written as two Entries, and
the first one, found at offset 70 of a file of 100 bytes, has the length
`min(50, 100 - 70)`. -/
theorem prepBasicWrite_inlock_entry_fields_witness :
    (∃ new, (prepBasicWrite_inlock 2 ⟨70, 50⟩ (exampleState ⟨"A"⟩ ⟨"B"⟩ localPath)).2.bb =
        (exampleState ⟨"A"⟩ ⟨"B"⟩ localPath).bb ++ new ∧
      entryRecords new = [⟨30, 70, 7, false⟩, ⟨20, 0, 8, false⟩]) ∧
    ∃ f ofs, (exampleViews ⟨"A"⟩ ⟨"B"⟩ localPath).find_inlock 70 = some (f, ofs) ∧
      (30 : Nat) = min 50 (((exampleViews ⟨"A"⟩ ⟨"B"⟩ localPath).mmf f).length - ofs) := by
  obtain ⟨⟨new, h1, h2⟩, h3⟩ :=
    prepBasicWrite_inlock_entry_fields 2 ⟨70, 50⟩ (exampleState ⟨"A"⟩ ⟨"B"⟩ localPath)
      (exampleViews_filesBounded _ _ _)
  refine ⟨⟨new, h1, h2.trans (by decide)⟩, ?_⟩
  obtain ⟨f, ofs, k1, k2, _⟩ := h3 ⟨70, 50⟩ (⟨"A"⟩, ⟨30, 70, 7, false⟩, 70) (by decide)
  exact ⟨f, ofs, k1, k2⟩

/-- A call on an address found at an offset that fails the check ends the encoding in
the failed check, with the buffer as that call found it. -/
theorem prepBasicWrite_inlock_of_failsOfsCheck (fuel : Nat) :
    ∀ (i : WriteIntent) (st : JournalState) (c : WriteIntent × JournalState),
      c ∈ prepBasicWrite_calls fuel i st → failsOfsCheck c.2.privateViews c.1 = true →
      (prepBasicWrite_inlock fuel i st).1 = Outcome.verifyFailed Check.ofsInRange ∧
      (prepBasicWrite_inlock fuel i st).2.bb = c.2.bb := by
  induction fuel with
  | zero => intro i st c hc; simp [prepBasicWrite_calls] at hc
  | succ n ih =>
    intro i st c hc hfail
    rw [prepBasicWrite_calls_succ] at hc
    rw [prepBasicWrite_inlock_succ]
    rcases List.mem_cons.1 hc with rfl | hc
    · unfold failsOfsCheck at hfail
      cases hfind : st.privateViews.find_inlock i.start with
      | none => simp [hfind] at hfail
      | some y =>
        obtain ⟨f, ofs⟩ := y
        simp only [hfind, decide_eq_true_eq] at hfail
        rw [body_bad_ofs i st f ofs hfind (by omega)]
        exact ⟨rfl, tagWillNeedRemap_bb st f⟩
    · cases hb : prepBasicWrite_body i st with
      | failed o st1 => rw [hb] at hc; cases hc
      | done st1 => rw [hb] at hc; cases hc
      | split next st1 =>
        rw [hb] at hc
        exact ih next st1 c hc hfail

/-- An encoding that ends in the failed check on the offset has made a call on an
address found at an offset that fails the check. -/
theorem failsOfsCheck_of_verifyFailed (fuel : Nat) :
    ∀ (i : WriteIntent) (st : JournalState),
      (prepBasicWrite_inlock fuel i st).1 = Outcome.verifyFailed Check.ofsInRange →
      ∃ c ∈ prepBasicWrite_calls fuel i st, failsOfsCheck c.2.privateViews c.1 = true := by
  induction fuel with
  | zero => intro i st h; simp [prepBasicWrite_inlock] at h
  | succ n ih =>
    intro i st h
    rw [prepBasicWrite_inlock_succ] at h
    rw [prepBasicWrite_calls_succ]
    cases hfind : st.privateViews.find_inlock i.start with
    | none => rw [body_unresolved i st hfind] at h; simp at h
    | some y =>
      obtain ⟨f, ofs⟩ := y
      by_cases hofs : ofs ≤ 0x80000000
      · have hb := body_resolved i st f ofs hfind hofs
        by_cases hlen : (makeJEntry i (st.privateViews.mmf f) ofs).len = i.length
        · simp only [hlen, ne_eq, not_true_eq_false, if_false] at hb
          rw [hb] at h
          simp at h
        · simp only [ne_eq, hlen, not_false_eq_true, if_true] at hb
          rw [hb] at h ⊢
          obtain ⟨c, hc, hf⟩ := ih _ _ h
          exact ⟨c, List.mem_cons_of_mem _ hc, hf⟩
      · exact ⟨(i, st), List.mem_cons_self _ _, by
          simp only [failsOfsCheck, hfind, decide_eq_true_eq]; omega⟩

/-- C13: the encoding of a range ends in the failed check on the offset exactly when
one of its calls, the first one or one made for a rest of the range, finds its address
at an offset greater than `0x80000000`; the buffer is then as that call found it, every
Entry written has an offset of at most `0x80000000`, and a range found at the offset
`0x80000000` itself gets its Entry. -/
theorem prepBasicWrite_inlock_ofs_check (fuel : Nat) (i : WriteIntent) (st : JournalState) :
    ((prepBasicWrite_inlock fuel i st).1 = Outcome.verifyFailed Check.ofsInRange ↔
      ∃ c ∈ prepBasicWrite_calls fuel i st, failsOfsCheck c.2.privateViews c.1 = true) ∧
    (∀ c ∈ prepBasicWrite_calls fuel i st, failsOfsCheck c.2.privateViews c.1 = true →
      (prepBasicWrite_inlock fuel i st).2.bb = c.2.bb) ∧
    (∃ new, (prepBasicWrite_inlock fuel i st).2.bb = st.bb ++ new ∧
      ∀ e ∈ entryRecords new, e.ofs ≤ 0x80000000) ∧
    (∀ f, st.privateViews.find_inlock i.start = some (f, 0x80000000) →
      (prepBasicWrite_body i st).state.bb =
        st.bb ++ contextItems st.lastDbPath (st.privateViews.mmf f).relativePath ++
          [BufItem.entry (makeJEntry i (st.privateViews.mmf f) 0x80000000),
           BufItem.buf i.start (makeJEntry i (st.privateViews.mmf f) 0x80000000).len] ∧
      (makeJEntry i (st.privateViews.mmf f) 0x80000000).ofs = 0x80000000) := by
  refine ⟨⟨failsOfsCheck_of_verifyFailed fuel i st, fun ⟨c, hc, hf⟩ =>
    (prepBasicWrite_inlock_of_failsOfsCheck fuel i st c hc hf).1⟩,
    fun c hc hf => (prepBasicWrite_inlock_of_failsOfsCheck fuel i st c hc hf).2, ?_, ?_⟩
  · refine ⟨_, (prepBasicWrite_inlock_layout fuel i st).1, ?_⟩
    intro e he
    rw [entryRecords_layoutByCursor] at he
    obtain ⟨x, hx, rfl⟩ := List.mem_map.1 he
    obtain ⟨r, _, hr⟩ := List.mem_filterMap.1 hx
    obtain ⟨f, ofs, _, h2, _, _, _, h6, _⟩ := resolvedEntry_fields _ r x hr
    rw [h6]
    exact h2
  · intro f hfind
    have hb := body_resolved i st f 0x80000000 hfind (le_refl _)
    refine ⟨?_, toUnsigned_of_lt 0x80000000 (by decide)⟩
    rw [hb]
    split <;> simp [BodyResult.state, afterEntry_bb]

/-- C13, witness: in the file of `0x90000000` bytes the range `(0x80000001, 50)` fails
the check, and the range `(0x80000000, 50)` gets its Entry. -/
theorem prepBasicWrite_inlock_ofs_check_witness :
    (prepBasicWrite_inlock 1 ⟨0x80000001, 50⟩ largeFileState).1 =
      Outcome.verifyFailed Check.ofsInRange ∧
    (prepBasicWrite_body ⟨0x80000000, 50⟩ largeFileState).state.bb =
      [BufItem.dbContext, BufItem.str "big", BufItem.entry ⟨50, 0x80000000, 3, false⟩,
        BufItem.buf 0x80000000 50] :=
  ⟨(prepBasicWrite_inlock_ofs_check 1 ⟨0x80000001, 50⟩ largeFileState).1.2
      ⟨(⟨0x80000001, 50⟩, largeFileState), List.mem_cons_self _ _, by decide⟩,
    ((prepBasicWrite_inlock_ofs_check 1 ⟨0x80000000, 50⟩ largeFileState).2.2.2 0
      (by decide)).1.trans (by decide)⟩

/-! ## Termination of the split (C15) -/

/-- With every call finding its address with room left, each call is on a shorter range
than the one before, and there are at most as many calls as the range has bytes (one
call for an empty range). -/
theorem prepBasicWrite_calls_steps (fuel : Nat) :
    ∀ (i : WriteIntent) (st : JournalState), i.length < fuel →
      (∀ c ∈ prepBasicWrite_calls fuel i st, resolvesWithRoom c.2.privateViews c.1 = true) →
      (prepBasicWrite_calls fuel i st).length ≤ max 1 i.length ∧
      (prepBasicWrite_calls fuel i st).Chain' (fun a b => b.1.length < a.1.length) := by
  induction fuel with
  | zero => intro i st h; omega
  | succ n ih =>
    intro i st hf hres
    have h0 := hres (i, st) (by rw [prepBasicWrite_calls_succ]; exact List.mem_cons_self _ _)
    unfold resolvesWithRoom at h0
    cases hfind : st.privateViews.find_inlock i.start with
    | none => simp [hfind] at h0
    | some r =>
      obtain ⟨f, ofs⟩ := r
      simp only [hfind, Bool.and_eq_true, decide_eq_true_eq] at h0
      obtain ⟨hofs, hrem⟩ := h0
      have hb := body_resolved i st f ofs hfind hofs
      have hle := makeJEntry_len_le i (st.privateViews.mmf f) ofs
      by_cases hlen : (makeJEntry i (st.privateViews.mmf f) ofs).len = i.length
      · simp only [hlen, ne_eq, not_true_eq_false, if_false] at hb
        rw [prepBasicWrite_calls_succ, hb]
        exact ⟨by simp, List.chain'_singleton _⟩
      · simp only [ne_eq, hlen, not_false_eq_true, if_true] at hb
        have hpos : 0 < (makeJEntry i (st.privateViews.mmf f) ofs).len := by
          rw [makeJEntry_len] at hlen ⊢
          omega
        have hcalls : prepBasicWrite_calls (n + 1) i st =
            (i, st) :: prepBasicWrite_calls n
              ⟨i.start + (makeJEntry i (st.privateViews.mmf f) ofs).len,
                i.length - (makeJEntry i (st.privateViews.mmf f) ofs).len⟩
              (afterEntry st f (makeJEntry i (st.privateViews.mmf f) ofs) i.start) := by
          rw [prepBasicWrite_calls_succ, hb]
        obtain ⟨m, rfl⟩ : ∃ m, n = m + 1 := ⟨n - 1, by omega⟩
        obtain ⟨k1, k2⟩ := ih
          ⟨i.start + (makeJEntry i (st.privateViews.mmf f) ofs).len,
            i.length - (makeJEntry i (st.privateViews.mmf f) ofs).len⟩
          (afterEntry st f (makeJEntry i (st.privateViews.mmf f) ofs) i.start)
          (by simp only; omega)
          (fun c hc => hres c (by rw [hcalls]; exact List.mem_cons_of_mem _ hc))
        rw [hcalls]
        refine ⟨?_, ?_⟩
        · simp only [List.length_cons]
          simp only at k1
          omega
        · rw [prepBasicWrite_calls_succ] at k2 ⊢
          refine List.Chain'.cons ?_ k2
          simp only
          omega

/-- C15, as the code has it: when every call made for a range finds its address at an
offset of at most `0x80000000` with at least one byte left in the file (computed in 32
bits), the encoding ends well within `range.length + 1` calls, in fact within
`max(1, range.length)` calls, each call is on a strictly shorter range than the one
before, and the Entries written add up to the whole range. -/
theorem prepBasicWrite_inlock_terminates (fuel : Nat) (i : WriteIntent) (st : JournalState)
    (hfuel : i.length < fuel)
    (hres : ∀ c ∈ prepBasicWrite_calls fuel i st,
      resolvesWithRoom c.2.privateViews c.1 = true) :
    (prepBasicWrite_inlock fuel i st).1 = Outcome.ok ∧
    (prepBasicWrite_calls fuel i st).length ≤ max 1 i.length ∧
    (prepBasicWrite_calls fuel i st).Chain' (fun a b => b.1.length < a.1.length) ∧
    ∃ new, (prepBasicWrite_inlock fuel i st).2.bb = st.bb ++ new ∧
      (entryLens new).sum = i.length := by
  obtain ⟨new, h1, h2, h3, _⟩ := prepBasicWrite_inlock_lengths fuel i st hfuel hres
  obtain ⟨k1, k2⟩ := prepBasicWrite_calls_steps fuel i st hfuel hres
  exact ⟨h1, k1, k2, new, h2, h3⟩

/-- C15, witness: the range `(70,50)` over `exampleViews` takes two calls. -/
theorem prepBasicWrite_inlock_terminates_witness :
    (prepBasicWrite_inlock 51 ⟨70, 50⟩ (exampleState ⟨"A"⟩ ⟨"B"⟩ localPath)).1 = Outcome.ok ∧
    (prepBasicWrite_calls 51 ⟨70, 50⟩ (exampleState ⟨"A"⟩ ⟨"B"⟩ localPath)).length ≤
      max 1 (WriteIntent.length ⟨70, 50⟩) :=
  ⟨(prepBasicWrite_inlock_terminates 51 ⟨70, 50⟩ (exampleState ⟨"A"⟩ ⟨"B"⟩ localPath)
      (by decide) (by decide)).1,
   (prepBasicWrite_inlock_terminates 51 ⟨70, 50⟩ (exampleState ⟨"A"⟩ ⟨"B"⟩ localPath)
      (by decide) (by decide)).2.1⟩

/-- C15, counterexample: in the file of `0x90000000` bytes the range `(0x80000010, 8)` is
found with bytes left in the file, yet the encoding stops at the check of line 98 with
the whole range left; and in the file of `2^32 + 5` bytes the range `(5,10)` is found
with `2^32` bytes left, which line 97 narrows to 0, so that the call is repeated on the
same range and the encoding never ends. -/
theorem prepBasicWrite_inlock_remainder_left :
    largeFileState.privateViews.find_inlock 0x80000010 = some (0, 0x80000010) ∧
    1 ≤ (largeFileState.privateViews.mmf 0).length - 0x80000010 ∧
    (∀ fuel : Nat,
      (prepBasicWrite_inlock (fuel + 1) ⟨0x80000010, 8⟩ largeFileState).1 =
        Outcome.verifyFailed Check.ofsInRange ∧
      entryLens (prepBasicWrite_inlock (fuel + 1) ⟨0x80000010, 8⟩ largeFileState).2.bb = []) ∧
    hugeFileState.privateViews.find_inlock 5 = some (0, 5) ∧
    (hugeFileState.privateViews.mmf 0).length - 5 = 4294967296 ∧
    (∀ fuel : Nat, (prepBasicWrite_inlock fuel ⟨5, 10⟩ hugeFileState).1 = Outcome.outOfFuel) := by
  refine ⟨by decide, by decide, fun fuel => ?_, by decide, by decide, fun fuel => ?_⟩
  · rw [prepBasicWrite_inlock_succ,
      body_bad_ofs ⟨0x80000010, 8⟩ largeFileState 0 0x80000010 (by decide) (by decide)]
    exact ⟨rfl, by rw [tagWillNeedRemap_bb]; rfl⟩
  · have key : ∀ (n : Nat) (st : JournalState),
        hugeFileState.privateViews.sameFiles st.privateViews →
        (prepBasicWrite_inlock n ⟨5, 10⟩ st).1 = Outcome.outOfFuel := by
      intro n
      induction n with
      | zero => intro st _; rfl
      | succ n ih =>
        intro st hs
        have hfind : st.privateViews.find_inlock 5 = some (0, 5) := by
          rw [← hs.1]; decide
        have hlenf : (st.privateViews.mmf 0).length = 4294967301 := by
          rw [← (hs.2 0).1]; rfl
        have he : (makeJEntry ⟨5, 10⟩ (st.privateViews.mmf 0) 5).len = 0 := by
          rw [makeJEntry_len, hlenf]
          unfold toUnsigned
          simp only
          omega
        have hb := body_resolved ⟨5, 10⟩ st 0 5 hfind (by decide)
        rw [he] at hb
        simp only [ne_eq, OfNat.zero_ne_ofNat, not_false_eq_true, if_true, Nat.add_zero,
          Nat.sub_zero] at hb
        rw [prepBasicWrite_inlock_succ, hb]
        exact ih _ (sameFiles_trans hs (by rw [afterEntry_privateViews]; exact sameFiles_tag st 0))
    exact key fuel hugeFileState (sameFiles_refl _)

/-! ## Payloads (C16) -/

theorem memBytes_add (mem : Nat → Nat) (a m n : Nat) :
    memBytes mem a (m + n) = memBytes mem a m ++ memBytes mem (a + m) n := by
  unfold memBytes
  rw [List.range_add, List.map_append, List.map_map]
  congr 1
  apply List.map_congr_left
  intro k _
  simp [Nat.add_assoc]

theorem payloadBytes_contiguous (mem : Nat → Nat) (ps : List (Nat × Nat)) :
    ∀ a : Nat, contiguousFrom a ps →
      payloadBytes mem ps = memBytes mem a (ps.map Prod.snd).sum := by
  induction ps with
  | nil => intro a _; simp [payloadBytes, memBytes]
  | cons p t ih =>
    intro a h
    obtain ⟨src, len⟩ := p
    simp only [contiguousFrom] at h
    obtain ⟨rfl, h2⟩ := h
    simp only [payloadBytes, List.map_cons, List.sum_cons, memBytes_add, ih _ h2]

theorem payloads_layoutByCursor (es : List (RelativePath × JEntry × Nat)) :
    ∀ c : RelativePath,
      payloads (layoutByCursor c es) = es.map (fun x => (x.2.2, x.2.1.len)) := by
  induction es with
  | nil => intro c; rfl
  | cons a t ih =>
    intro c
    obtain ⟨p, e, src⟩ := a
    simp [layoutByCursor, payloads_append, payloads_contextItems, payloads, ih]

theorem payloadFollowsEntry_layoutByCursor (es : List (RelativePath × JEntry × Nat)) :
    ∀ c : RelativePath, payloadFollowsEntry (layoutByCursor c es) := by
  induction es with
  | nil => intro c; simp [layoutByCursor, payloadFollowsEntry]
  | cons a t ih =>
    intro c
    obtain ⟨p, e, src⟩ := a
    simp only [layoutByCursor, contextItems]
    split
    · simp [payloadFollowsEntry, ih]
    · simp [payloadFollowsEntry, ih]

/-- C16: in what `prepBasicWrite_inlock` appends, every `JEntry` is immediately followed
by a payload of exactly its length, copied from the start of the range of its call; and
when the encoding of a range ends well, the bytes of its payloads, one after the other,
are the bytes of memory from the start of the range to its end. -/
theorem prepBasicWrite_inlock_payloads (fuel : Nat) (i : WriteIntent) (st : JournalState) :
    ∃ new, (prepBasicWrite_inlock fuel i st).2.bb = st.bb ++ new ∧
      payloadFollowsEntry new ∧
      payloads new =
        (((prepBasicWrite_calls fuel i st).map Prod.fst).filterMap
          (fun r => (resolvedEntry st.privateViews r).map (fun x => (r.start, x.2.1.len)))) ∧
      ((prepBasicWrite_inlock fuel i st).1 = Outcome.ok →
        ∀ mem : Nat → Nat, payloadBytes mem (payloads new) = memBytes mem i.start i.length) := by
  refine ⟨_, (prepBasicWrite_inlock_layout fuel i st).1,
    payloadFollowsEntry_layoutByCursor _ _, ?_, ?_⟩
  · rw [payloads_layoutByCursor, List.map_filterMap]
    apply List.filterMap_congr
    intro r _
    cases hx : resolvedEntry st.privateViews r with
    | none => rfl
    | some x =>
      obtain ⟨_, _, _, _, _, h4, _⟩ := resolvedEntry_fields _ r x hx
      simp [h4]
  · intro hok mem
    obtain ⟨new, h1, h2, h3, h4⟩ := prepBasicWrite_inlock_ok_lengths fuel i st hok
    have hnew := List.append_cancel_left
      ((prepBasicWrite_inlock_layout fuel i st).1.symm.trans h1)
    rw [hnew, payloadBytes_contiguous mem _ i.start h4, h3, h2]

/-- C16, witness: the range `(70,50)` over `exampleViews`, in a memory that holds at each
address the address itself. -/
theorem prepBasicWrite_inlock_payloads_witness :
    ∃ new, (prepBasicWrite_inlock 2 ⟨70, 50⟩ (exampleState ⟨"A"⟩ ⟨"B"⟩ localPath)).2.bb =
        (exampleState ⟨"A"⟩ ⟨"B"⟩ localPath).bb ++ new ∧
      payloads new = [(70, 30), (100, 20)] ∧
      payloadBytes id (payloads new) = memBytes id 70 50 := by
  obtain ⟨new, h1, _, h3, h4⟩ :=
    prepBasicWrite_inlock_payloads 2 ⟨70, 50⟩ (exampleState ⟨"A"⟩ ⟨"B"⟩ localPath)
  exact ⟨new, h1, h3.trans (by decide), h4 (by decide) id⟩

/-! ## The remap tags (C19) -/

theorem tagWillNeedRemap_flag (st : JournalState) (f g : Nat) :
    ((st.tagWillNeedRemap f).privateViews.mmf g).willNeedRemap = true ↔
      (st.privateViews.mmf g).willNeedRemap = true ∨ g = f := by
  unfold JournalState.tagWillNeedRemap JournalState.setWillNeedRemap
  by_cases hflag : (st.privateViews.mmf f).willNeedRemap = false
  · by_cases hg : g = f
    · simp [hflag, hg]
    · simp [hflag, hg]
  · have hflag2 : (st.privateViews.mmf f).willNeedRemap = true := by
      cases h : (st.privateViews.mmf f).willNeedRemap with
      | true => rfl
      | false => exact absurd h hflag
    by_cases hg : g = f
    · subst hg; simp [hflag2]
    · simp [hflag2, hg]

theorem resolvedHandles_congr {a b : PrivateViews} (h : a.sameFiles b)
    (rs : List WriteIntent) : resolvedHandles a rs = resolvedHandles b rs := by
  unfold resolvedHandles
  rw [h.1]

/-- The tag of a mapped file after the calls made for a range: set when it was set
before or when one of the calls found its address in the file. -/
theorem prepBasicWrite_inlock_flags (fuel : Nat) :
    ∀ (i : WriteIntent) (st : JournalState) (g : Nat),
      ((prepBasicWrite_inlock fuel i st).2.privateViews.mmf g).willNeedRemap = true ↔
        (st.privateViews.mmf g).willNeedRemap = true ∨
          g ∈ resolvedHandles st.privateViews
            ((prepBasicWrite_calls fuel i st).map Prod.fst) := by
  induction fuel with
  | zero =>
    intro i st g
    simp [prepBasicWrite_inlock, prepBasicWrite_calls, resolvedHandles]
  | succ n ih =>
    intro i st g
    rw [prepBasicWrite_inlock_succ, prepBasicWrite_calls_succ]
    cases hfind : st.privateViews.find_inlock i.start with
    | none =>
      rw [body_unresolved i st hfind]
      simp [resolvedHandles, hfind]
    | some r =>
      obtain ⟨f, ofs⟩ := r
      by_cases hofs : ofs ≤ 0x80000000
      · rw [body_resolved i st f ofs hfind hofs]
        have hsame : st.privateViews.sameFiles
            (afterEntry st f (makeJEntry i (st.privateViews.mmf f) ofs) i.start).privateViews := by
          rw [afterEntry_privateViews]
          exact sameFiles_tag st f
        by_cases hlen : (makeJEntry i (st.privateViews.mmf f) ofs).len = i.length
        · simp only [hlen, ne_eq, not_true_eq_false, if_false, afterEntry_privateViews,
            tagWillNeedRemap_flag]
          simp [resolvedHandles, hfind]
        · simp only [ne_eq, hlen, not_false_eq_true, if_true]
          rw [ih, afterEntry_privateViews, tagWillNeedRemap_flag,
            ← afterEntry_privateViews st f (makeJEntry i (st.privateViews.mmf f) ofs) i.start,
            ← resolvedHandles_congr hsame]
          simp only [resolvedHandles, List.map_cons, List.filterMap_cons, hfind,
            Option.map_some', List.mem_cons]
          tauto
      · rw [body_bad_ofs i st f ofs hfind hofs]
        simp only [tagWillNeedRemap_flag]
        simp [resolvedHandles, hfind]

/-- C19: after the calls made for a range, whether the encoding ends well or not, the
mapped files in which a call found its address are tagged as needing a remap, the tag of
every other mapped file is as before, and no tag that was set is cleared. -/
theorem prepBasicWrite_inlock_remap_tags (fuel : Nat) (i : WriteIntent) (st : JournalState) :
    (∀ g ∈ resolvedHandles st.privateViews ((prepBasicWrite_calls fuel i st).map Prod.fst),
      ((prepBasicWrite_inlock fuel i st).2.privateViews.mmf g).willNeedRemap = true) ∧
    (∀ g, g ∉ resolvedHandles st.privateViews ((prepBasicWrite_calls fuel i st).map Prod.fst) →
      ((prepBasicWrite_inlock fuel i st).2.privateViews.mmf g).willNeedRemap =
        (st.privateViews.mmf g).willNeedRemap) ∧
    (∀ g, (st.privateViews.mmf g).willNeedRemap = true →
      ((prepBasicWrite_inlock fuel i st).2.privateViews.mmf g).willNeedRemap = true) := by
  refine ⟨fun g hg => (prepBasicWrite_inlock_flags fuel i st g).2 (Or.inr hg),
    fun g hg => ?_, fun g hg => (prepBasicWrite_inlock_flags fuel i st g).2 (Or.inl hg)⟩
  have h := prepBasicWrite_inlock_flags fuel i st g
  cases h1 : ((prepBasicWrite_inlock fuel i st).2.privateViews.mmf g).willNeedRemap with
  | true =>
    rcases h.1 h1 with h2 | h2
    · exact h2.symm
    · exact absurd h2 hg
  | false =>
    cases h2 : (st.privateViews.mmf g).willNeedRemap with
    | false => rfl
    | true => rw [h.2 (Or.inl h2)] at h1; cases h1

/-- C19, witness: the range `(70,50)` over `exampleViews` is found in the files 0 and 1;
the file 0 gets its tag, the file 1 keeps it, and the file 2 stays without. -/
theorem prepBasicWrite_inlock_remap_tags_witness :
    resolvedHandles (exampleState ⟨"A"⟩ ⟨"B"⟩ localPath).privateViews
      ((prepBasicWrite_calls 2 ⟨70, 50⟩ (exampleState ⟨"A"⟩ ⟨"B"⟩ localPath)).map Prod.fst) =
      [0, 1] ∧
    ((exampleState ⟨"A"⟩ ⟨"B"⟩ localPath).privateViews.mmf 0).willNeedRemap = false ∧
    ((prepBasicWrite_inlock 2 ⟨70, 50⟩
      (exampleState ⟨"A"⟩ ⟨"B"⟩ localPath)).2.privateViews.mmf 0).willNeedRemap = true ∧
    ((prepBasicWrite_inlock 2 ⟨70, 50⟩
      (exampleState ⟨"A"⟩ ⟨"B"⟩ localPath)).2.privateViews.mmf 2).willNeedRemap =
      ((exampleState ⟨"A"⟩ ⟨"B"⟩ localPath).privateViews.mmf 2).willNeedRemap :=
  ⟨by decide, by decide,
    (prepBasicWrite_inlock_remap_tags 2 ⟨70, 50⟩ (exampleState ⟨"A"⟩ ⟨"B"⟩ localPath)).1 0
      (by decide),
    (prepBasicWrite_inlock_remap_tags 2 ⟨70, 50⟩ (exampleState ⟨"A"⟩ ⟨"B"⟩ localPath)).2.1 2
      (by decide)⟩

/-! ## The cursor across Entries of the local path (C20) -/

end dur

/-! ## Releasing a `Shared` guard (C4) -/

namespace OptimisticShareableLock

/-- On the fast path the release undoes the acquisition: the counter and the lock `_r`
are as before. -/
theorem Shared.fast_path_restores (l : OptimisticShareableLock) (h : l._x + 1 < EXCLUSIVE) :
    ∃ l1, Shared.acquire l = some (⟨true⟩, l1) ∧
      (Shared.release ⟨true⟩ l1)._x = l._x ∧ (Shared.release ⟨true⟩ l1)._r = l._r := by
  have hx : dur.toUnsigned ((l._x : Int) + 1) = l._x + 1 := by
    unfold EXCLUSIVE at h
    unfold dur.toUnsigned
    omega
  refine ⟨{ l with _x := l._x + 1 }, ?_, ?_, ?_⟩
  · simp [Shared.acquire, hx, h]
  · have : dur.toUnsigned (((l._x + 1 : Nat) : Int) - 1) = l._x := by
      unfold EXCLUSIVE at h
      unfold dur.toUnsigned
      omega
    simp only [Shared.release, decrement, if_true, this]
    split <;> rfl
  · simp only [Shared.release, decrement, if_true]
    split <;> rfl

/-- C4, the failing input: with one fast-path reader inside and an exclusive locker
waiting for it (`_x = 0x10001`, `_r` free), a `Shared` guard is acquired on the slow path,
which takes the reader lock; its release does nothing, so that `_r` is left with one
reader where it had none. -/
theorem Shared.slow_path_release_keeps_reader_lock :
    Shared.acquire ⟨0x10001, ⟨0, false⟩, 0⟩ = some (⟨false⟩, ⟨0x10001, ⟨1, false⟩, 0⟩) ∧
    Shared.release ⟨false⟩ ⟨0x10001, ⟨1, false⟩, 0⟩ = ⟨0x10001, ⟨1, false⟩, 0⟩ ∧
    (Shared.release ⟨false⟩ ⟨0x10001, ⟨1, false⟩, 0⟩)._r ≠
      (⟨0x10001, ⟨0, false⟩, 0⟩ : OptimisticShareableLock)._r := by
  decide

/-! ## The counter in every reachable state (C17) -/

/-- The constructor `Shared(l)` starts with the atomic increment. -/
theorem Shared.acquire_eq (l : OptimisticShareableLock) :
    Shared.acquire l =
      if l.preIncrement._x < EXCLUSIVE then some (⟨true⟩, l.preIncrement)
      else
        match l.preIncrement.decrement._r.lock_shared with
        | none => none
        | some r => some (⟨false⟩, { l.preIncrement.decrement with _r := r }) := by
  by_cases h : dur.toUnsigned ((l._x : Int) + 1) < EXCLUSIVE
  · simp [Shared.acquire, preIncrement, h]
  · simp [Shared.acquire, preIncrement, h]

/-- The destructor `~Exclusive()` is the atomic subtraction followed by `unlock()`. -/
theorem Exclusive.release_eq (g : Exclusive) (l : OptimisticShareableLock) :
    Exclusive.release g l =
      { l.signedAdd (-(EXCLUSIVE : Int)) with _r := l._r.unlock } := by
  simp [Exclusive.release, signedAdd, Int.sub_eq_add_neg]

theorem decrement_x (l : OptimisticShareableLock) :
    l.decrement._x = dur.toUnsigned ((l._x : Int) - 1) := by
  unfold decrement
  simp only
  split <;> rfl

theorem Counted.step_inv (s s1 : Counted) (op : CounterOp) (h : s.Inv)
    (hs : s.step op = some s1) : s1.Inv := by
  unfold Counted.Inv at h ⊢
  cases op with
  | sharedIncrement =>
    simp only [Counted.step] at hs
    split at hs <;>
      (simp only [Option.some.injEq] at hs
       subst hs
       simp only [preIncrement, h]
       unfold dur.toUnsigned EXCLUSIVE
       omega)
  | sharedBackOut =>
    simp only [Counted.step] at hs
    split at hs
    · simp only [Option.some.injEq] at hs
      subst hs
      simp only [decrement_x, h]
      unfold dur.toUnsigned EXCLUSIVE
      omega
    · cases hs
  | sharedRelease =>
    simp only [Counted.step] at hs
    split at hs
    · simp only [Option.some.injEq] at hs
      subst hs
      simp only [decrement_x, h]
      unfold dur.toUnsigned EXCLUSIVE
      omega
    · cases hs
  | exclusiveAdd =>
    simp only [Counted.step, Option.some.injEq] at hs
    subst hs
    simp only [signedAdd, h]
    unfold dur.toUnsigned EXCLUSIVE
    omega
  | exclusiveSubtract =>
    simp only [Counted.step] at hs
    split at hs
    · simp only [Option.some.injEq] at hs
      subst hs
      simp only [signedAdd, h]
      unfold dur.toUnsigned EXCLUSIVE
      omega
    · cases hs

theorem Counted.run_inv (ops : List CounterOp) :
    ∀ s s1 : Counted, s.Inv → Counted.run ops s = some s1 → s1.Inv := by
  induction ops with
  | nil =>
    intro s s1 h hr
    simp only [Counted.run, Option.some.injEq] at hr
    exact hr ▸ h
  | cons op ops ih =>
    intro s s1 h hr
    simp only [Counted.run] at hr
    cases hs : s.step op with
    | none => rw [hs] at hr; cases hr
    | some s2 =>
      rw [hs] at hr
      exact ih s2 s1 (Counted.step_inv s s2 op h hs) hr

theorem Counted.run_append (xs ys : List CounterOp) :
    ∀ s : Counted, Counted.run (xs ++ ys) s =
      match Counted.run xs s with
      | none => none
      | some s1 => Counted.run ys s1 := by
  induction xs with
  | nil => intro s; rfl
  | cons x xs ih =>
    intro s
    simp only [List.cons_append, Counted.run]
    cases s.step x with
    | none => rfl
    | some s2 => exact ih s2

/-- From a state with `k` fast-path guards and nothing else, `n` more increments lead to
`k + n` fast-path guards, as long as the counter stays below `EXCLUSIVE`. -/
theorem Counted.run_increments (n : Nat) :
    ∀ k : Nat, k + n < 65536 →
      Counted.run (List.replicate n CounterOp.sharedIncrement) ⟨⟨k, ⟨0, false⟩, 0⟩, k, 0, 0⟩ =
        some ⟨⟨k + n, ⟨0, false⟩, 0⟩, k + n, 0, 0⟩ := by
  induction n with
  | zero => intro k _; rfl
  | succ n ih =>
    intro k hk
    have hx : dur.toUnsigned ((k : Int) + 1) = k + 1 := by
      unfold dur.toUnsigned
      omega
    have hlt : k + 1 < EXCLUSIVE := by unfold EXCLUSIVE; omega
    have hstep : Counted.step ⟨⟨k, ⟨0, false⟩, 0⟩, k, 0, 0⟩ CounterOp.sharedIncrement =
        some ⟨⟨k + 1, ⟨0, false⟩, 0⟩, k + 1, 0, 0⟩ := by
      simp [Counted.step, preIncrement, hx, hlt]
    simp only [List.replicate_succ, Counted.run, hstep]
    rw [ih (k + 1) (by omega)]
    have hk2 : k + 1 + n = k + (n + 1) := by omega
    rw [hk2]

/-- C17, as the code has it: in every state that operations on the counter lead to, the
counter is the number of fast-path `Shared` guards plus the `Shared` constructors that
have incremented and not yet backed out plus `EXCLUSIVE` times the number of `Exclusive`
guards with their bias added, modulo `2^32`; so while fewer than 65536 shared acquirers
are counted, the low 16 bits are their number, and while also fewer than 65536 biases
are added, the counter is at `EXCLUSIVE` or above exactly when a bias is added. -/
theorem Counted.counter_invariant (s : Counted) (h : s.Reachable) :
    s.lock._x = (s.quick + s.backingOut + EXCLUSIVE * s.biased) % 4294967296 ∧
    (s.quick + s.backingOut < 65536 → s.lock._x &&& MASK = s.quick + s.backingOut) ∧
    (s.quick + s.backingOut < 65536 → s.biased < 65536 →
      (EXCLUSIVE ≤ s.lock._x ↔ 0 < s.biased)) := by
  obtain ⟨ops, hops⟩ := h
  have hinv : s.Inv := Counted.run_inv ops Counted.init s
    (by simp [Counted.Inv, Counted.init]) hops
  unfold Counted.Inv at hinv
  have hmask : ∀ x : Nat, x &&& MASK = x % 65536 := fun x =>
    Nat.and_pow_two_sub_one_eq_mod x 16
  refine ⟨hinv, fun h1 => ?_, fun h1 h2 => ?_⟩
  · rw [hmask, hinv]
    unfold EXCLUSIVE
    omega
  · rw [hinv]
    unfold EXCLUSIVE
    omega

/-- C17, witness: after two fast-path acquisitions, one `Exclusive` constructor and one
release, the counter is `0x10001`. -/
theorem Counted.counter_invariant_witness :
    (⟨⟨0x10001, ⟨0, false⟩, 0⟩, 1, 0, 1⟩ : Counted).Reachable ∧
    (0x10001 : Nat) &&& MASK = 1 + 0 :=
  ⟨⟨[CounterOp.sharedIncrement, CounterOp.sharedIncrement, CounterOp.exclusiveAdd,
      CounterOp.sharedRelease], by decide⟩,
    (Counted.counter_invariant ⟨⟨0x10001, ⟨0, false⟩, 0⟩, 1, 0, 1⟩
      ⟨[CounterOp.sharedIncrement, CounterOp.sharedIncrement, CounterOp.exclusiveAdd,
        CounterOp.sharedRelease], by decide⟩).2.1 (by decide)⟩

/-- C17, counterexample: after 65536 `Shared` constructors have incremented the counter,
65535 of them hold the fast path and the last one has not yet backed out; the counter is
`0x10000`, so its low 16 bits are 0 and not 65536, and it is at `EXCLUSIVE` although no
`Exclusive` guard has added its bias. -/
theorem Counted.counter_overflows_at_65536 :
    (⟨⟨0x10000, ⟨0, false⟩, 0⟩, 65535, 1, 0⟩ : Counted).Reachable ∧
    (0x10000 : Nat) &&& MASK ≠ 65535 + 1 ∧
    EXCLUSIVE ≤ 0x10000 ∧ ¬ (0 < (⟨⟨0x10000, ⟨0, false⟩, 0⟩, 65535, 1, 0⟩ : Counted).biased) := by
  refine ⟨⟨List.replicate 65535 CounterOp.sharedIncrement ++ [CounterOp.sharedIncrement], ?_⟩,
    by decide, by decide, by decide⟩
  rw [Counted.run_append]
  have h := Counted.run_increments 65535 0 (by decide)
  simp only [Nat.zero_add] at h
  rw [show Counted.init = ⟨⟨0, ⟨0, false⟩, 0⟩, 0, 0, 0⟩ from rfl, h]
  decide

/-! ## `Exclusive` and `Shared` guards in every interleaving (C3) -/

theorem decrement_r (l : OptimisticShareableLock) : l.decrement._r = l._r := by
  unfold decrement
  simp only
  split <;> rfl

theorem Guards.step_keeps_inv (n : Nat) (hn : n ≤ 65536) (s s1 : Guards) (op : GuardOp)
    (h : s.Inv n) (hs : s.step op = some s1) : s1.Inv n := by
  have hmask : ∀ x : Nat, x &&& MASK = x % 65536 := fun x =>
    Nat.and_pow_two_sub_one_eq_mod x 16
  obtain ⟨h1, h2, h3, h4, h5, h6⟩ := h
  unfold Guards.Inv
  cases op with
  | sharedIncrement =>
    simp only [Guards.step] at hs
    split at hs
    · split at hs
      · rename_i hidle hq
        simp only [Option.some.injEq] at hs
        subst hs
        simp only [preIncrement] at hq ⊢
        unfold dur.toUnsigned EXCLUSIVE at *
        refine ⟨by omega, by omega, h3, h4, h5, ?_⟩
        intro hw
        omega
      · rename_i hidle hq
        simp only [Option.some.injEq] at hs
        subst hs
        simp only [preIncrement] at hq ⊢
        unfold dur.toUnsigned EXCLUSIVE at *
        exact ⟨by omega, by omega, h3, h4, h5, h6⟩
    · cases hs
  | sharedBackOut =>
    simp only [Guards.step] at hs
    split at hs
    · simp only [Option.some.injEq] at hs
      subst hs
      simp only [decrement_x, decrement_r]
      unfold dur.toUnsigned EXCLUSIVE at *
      exact ⟨by omega, by omega, h3, h4, h5, h6⟩
    · cases hs
  | sharedLockShared =>
    simp only [Guards.step] at hs
    split at hs
    · split at hs
      · cases hs
      · rename_i hw r hr
        simp only [Option.some.injEq] at hs
        subst hs
        simp only [SimpleRWLock.lock_shared] at hr
        split at hr
        · cases hr
        · rename_i hwr
          simp only [Option.some.injEq] at hr
          subst hr
          simp only
          refine ⟨by omega, h2, h3, by omega, fun hc => absurd hc hwr, h6⟩
    · cases hs
  | sharedDestroyQuick =>
    simp only [Guards.step] at hs
    split at hs
    · simp only [Option.some.injEq] at hs
      subst hs
      simp only [decrement_x, decrement_r]
      unfold dur.toUnsigned EXCLUSIVE at *
      exact ⟨by omega, by omega, h3, h4, h5, by omega⟩
    · cases hs
  | sharedDestroySlow =>
    simp only [Guards.step] at hs
    split at hs
    · simp only [Option.some.injEq] at hs
      subst hs
      simp only
      exact ⟨by omega, h2, h3, by omega, h5, h6⟩
    · cases hs
  | exclusiveAdd =>
    simp only [Guards.step] at hs
    split at hs
    · split at hs
      · rename_i hidle hq
        simp only [Option.some.injEq] at hs
        subst hs
        simp only [signedAdd] at hq ⊢
        unfold dur.toUnsigned EXCLUSIVE at *
        exact ⟨by omega, by omega, h3, h4, h5, h6⟩
      · rename_i hidle hq
        simp only [Option.some.injEq] at hs
        subst hs
        simp only [signedAdd, hmask, ne_eq, not_not] at hq ⊢
        unfold dur.toUnsigned EXCLUSIVE at *
        refine ⟨by omega, by omega, h3, h4, h5, ?_⟩
        intro _
        omega
    · cases hs
  | exclusiveSeesNoReader =>
    simp only [Guards.step] at hs
    split at hs
    · rename_i hc
      obtain ⟨hw, hz⟩ := hc
      simp only [Option.some.injEq] at hs
      subst hs
      rw [hmask] at hz
      simp only
      unfold EXCLUSIVE at *
      refine ⟨by omega, by omega, h3, h4, h5, ?_⟩
      intro _
      omega
    · cases hs
  | exclusiveLock =>
    simp only [Guards.step] at hs
    split at hs
    · split at hs
      · cases hs
      · rename_i hw r hr
        simp only [Option.some.injEq] at hs
        subst hs
        simp only [SimpleRWLock.lock] at hr
        split at hr
        · cases hr
        · rename_i hwr
          simp only [Option.some.injEq] at hr
          subst hr
          simp only [not_or, Bool.not_eq_true, ne_eq, not_not] at hwr
          simp only
          unfold EXCLUSIVE at *
          refine ⟨by omega, by omega, Or.inl ⟨trivial, ?_⟩, h4, fun _ => hwr.2, by omega⟩
          rcases h3 with h3 | h3
          · rw [hwr.1] at h3
            cases h3.1
          · omega
    · cases hs
  | exclusiveSubtract =>
    simp only [Guards.step] at hs
    split at hs
    · simp only [Option.some.injEq] at hs
      subst hs
      simp only [signedAdd]
      unfold dur.toUnsigned EXCLUSIVE at *
      refine ⟨by omega, by omega, ?_, h4, h5, by omega⟩
      rcases h3 with h3 | h3
      · exact Or.inl ⟨h3.1, by omega⟩
      · omega
    · cases hs
  | exclusiveUnlock =>
    simp only [Guards.step] at hs
    split at hs
    · simp only [Option.some.injEq] at hs
      subst hs
      simp only [SimpleRWLock.unlock]
      refine ⟨by omega, h2, Or.inr ⟨trivial, ?_⟩, h4, fun hc => absurd hc (by decide), ?_⟩
      · rcases h3 with h3 | h3 <;> omega
      · intro hw
        exact h6 hw
    · cases hs

theorem Guards.run_keeps_inv (n : Nat) (hn : n ≤ 65536) (ops : List GuardOp) :
    ∀ s s1 : Guards, s.Inv n → Guards.run ops s = some s1 → s1.Inv n := by
  induction ops with
  | nil =>
    intro s s1 h hr
    simp only [Guards.run, Option.some.injEq] at hr
    exact hr ▸ h
  | cons op ops ih =>
    intro s s1 h hr
    simp only [Guards.run] at hr
    cases hs : s.step op with
    | none => rw [hs] at hr; cases hr
    | some s2 =>
      rw [hs] at hr
      exact ih s2 s1 (Guards.step_keeps_inv n hn s s2 op h hs) hr

theorem Guards.init_inv (n : Nat) : (Guards.init n).Inv n := by
  simp [Guards.Inv, Guards.init]

theorem Guards.run_concat (xs ys : List GuardOp) :
    ∀ s : Guards, Guards.run (xs ++ ys) s =
      match Guards.run xs s with
      | none => none
      | some s1 => Guards.run ys s1 := by
  induction xs with
  | nil => intro s; rfl
  | cons x xs ih =>
    intro s
    simp only [List.cons_append, Guards.run]
    cases s.step x with
    | none => rfl
    | some s2 => exact ih s2

/-- From a state with `k` holders of the fast path and `m + n` threads with no guard
under way, `n` more increments lead to `k + n` holders of the fast path, as long as the
counter stays below `EXCLUSIVE`. -/
theorem Guards.run_fast_increments (n : Nat) :
    ∀ k m : Nat, k + n < 65536 →
      Guards.run (List.replicate n GuardOp.sharedIncrement)
          ⟨⟨k, ⟨0, false⟩, 0⟩, m + n, k, 0, 0, 0, 0, 0, 0, 0⟩ =
        some ⟨⟨k + n, ⟨0, false⟩, 0⟩, m, k + n, 0, 0, 0, 0, 0, 0, 0⟩ := by
  induction n with
  | zero => intro k m _; rfl
  | succ n ih =>
    intro k m hk
    have hx : dur.toUnsigned ((k : Int) + 1) = k + 1 := by
      unfold dur.toUnsigned
      omega
    have hlt : k + 1 < EXCLUSIVE := by unfold EXCLUSIVE; omega
    have hstep : Guards.step ⟨⟨k, ⟨0, false⟩, 0⟩, m + (n + 1), k, 0, 0, 0, 0, 0, 0, 0⟩
        GuardOp.sharedIncrement =
        some ⟨⟨k + 1, ⟨0, false⟩, 0⟩, m + n, k + 1, 0, 0, 0, 0, 0, 0, 0⟩ := by
      simp [Guards.step, preIncrement, hx, hlt]
    simp only [List.replicate_succ, Guards.run, hstep]
    rw [ih (k + 1) m (by omega)]
    have hk2 : k + 1 + n = k + (n + 1) := by omega
    rw [hk2]

/-- C3, as the code has it: in every interleaving of at most 65536 threads that acquire
and release `Shared` and `Exclusive` guards of one lock, no state is reached in which a
thread holds an `Exclusive` guard (constructor returned, destructor not yet started)
while another thread holds a `Shared` guard, of the fast path or of the slow path. -/
theorem Guards.exclusive_excludes_shared (n : Nat) (s : Guards) (hn : n ≤ 65536)
    (hr : Guards.Reachable n s) : ¬ s.overlap := by
  obtain ⟨ops, hops⟩ := hr
  obtain ⟨_, _, h3, h4, h5, h6⟩ :=
    Guards.run_keeps_inv n hn ops (Guards.init n) s (Guards.init_inv n) hops
  rintro ⟨he, hq | hsl⟩
  · have := h6 (by omega)
    omega
  · rcases h3 with h3 | h3
    · have := h5 h3.1
      omega
    · omega

/-- C3, witness: of three threads, one takes the fast path, one starts an `Exclusive`
constructor and waits, one finds the counter at `EXCLUSIVE` and backs out; when the
first has released, the second gets its guard, and no `Shared` guard is held then. -/
theorem Guards.exclusive_excludes_shared_witness :
    Guards.Reachable 3 ⟨⟨0x10000, ⟨0, true⟩, 1⟩, 1, 0, 0, 1, 0, 0, 0, 1, 0⟩ ∧
    ¬ (⟨⟨0x10000, ⟨0, true⟩, 1⟩, 1, 0, 0, 1, 0, 0, 0, 1, 0⟩ : Guards).overlap :=
  ⟨⟨[GuardOp.sharedIncrement, GuardOp.exclusiveAdd, GuardOp.sharedIncrement,
      GuardOp.sharedBackOut, GuardOp.sharedDestroyQuick, GuardOp.exclusiveSeesNoReader,
      GuardOp.exclusiveLock], by decide⟩,
    Guards.exclusive_excludes_shared 3 ⟨⟨0x10000, ⟨0, true⟩, 1⟩, 1, 0, 0, 1, 0, 0, 0, 1, 0⟩
      (by decide)
      ⟨[GuardOp.sharedIncrement, GuardOp.exclusiveAdd, GuardOp.sharedIncrement,
        GuardOp.sharedBackOut, GuardOp.sharedDestroyQuick, GuardOp.exclusiveSeesNoReader,
        GuardOp.exclusiveLock], by decide⟩⟩

/-- C3, counterexample: of 65537 threads, 65535 take the fast path and hold their
`Shared` guards; one more increments the counter to `0x10000` and has not yet backed
out; the last one constructs an `Exclusive` guard: `signedAdd(EXCLUSIVE)` returns
`0x20000`, whose low 16 bits are 0, so the loop is skipped and `lock()` succeeds. An
`Exclusive` guard is held while 65535 `Shared` guards of the fast path are held. -/
theorem Guards.exclusive_overlaps_at_65537 :
    Guards.Reachable 65537 ⟨⟨0x20000, ⟨0, true⟩, 0⟩, 0, 65535, 1, 0, 0, 0, 0, 1, 0⟩ ∧
    (⟨⟨0x20000, ⟨0, true⟩, 0⟩, 0, 65535, 1, 0, 0, 0, 0, 1, 0⟩ : Guards).overlap := by
  refine ⟨⟨List.replicate 65535 GuardOp.sharedIncrement ++
    [GuardOp.sharedIncrement, GuardOp.exclusiveAdd, GuardOp.exclusiveLock], ?_⟩, ?_⟩
  · rw [Guards.run_concat]
    have h := Guards.run_fast_increments 65535 0 2 (by decide)
    simp only [Nat.zero_add] at h
    rw [show Guards.init 65537 = ⟨⟨0, ⟨0, false⟩, 0⟩, 2 + 65535, 0, 0, 0, 0, 0, 0, 0, 0⟩
      from rfl, h]
    decide
  · exact ⟨by decide, Or.inl (by decide)⟩

end OptimisticShareableLock

end mongo
